import Mathlib

/-!
Verification of `merge_epg.py`: a shallow embedding of the channel-name
normalization routine (`clean_text`), the alias table (`EPG_ALIASES`), the
master-list loader (`load_master_list`), the streaming feed walker
(`parse_xml_stream`), the per-run merge loop of `main`, and the output
assembler (`save_merged_xml`), together with theorems about them.

Modelling conventions:
- Python strings are `List Char` (`Str`).  `str.lower`, the regex character
  classes `\w` and `\s`, and `str.strip` are modelled on the ASCII range,
  which is the range the program's data (channel ids, master names) lives in.
- Python dicts are association lists in insertion order with
  assignment-overwrites-value-in-place semantics (`dictInsert`), matching
  CPython's ordered dicts.  Python sets are duplicate-free lists in insertion
  order (`insertSet`); only membership and sorted iteration are used.
- `re.sub(r"\b" + word + r"\b", " ", name)` where `word` consists only of
  word characters replaces exactly the maximal word-character runs of `name`
  that are equal to `word` with a single space (a `\b` boundary on both sides
  of an all-word-character pattern forces the occurrence to be a maximal
  run).  `removeWord` implements this through the run tokenizer `tokenize`.
- The module-global `parse_xml_stream.seen_programmes` set is threaded
  explicitly as a `seen` component; a fresh interpreter process corresponds
  to starting it at `[]`.
-/

set_option maxHeartbeats 1000000

abbrev Str := List Char

/-- ASCII model of the regex class `\w` used by `regex_remove` and the
word-boundary patterns: letters, digits and underscore. -/
def isWordChar (c : Char) : Bool :=
  decide (97 ≤ c.toNat ∧ c.toNat ≤ 122) || decide (65 ≤ c.toNat ∧ c.toNat ≤ 90) ||
    decide (48 ≤ c.toNat ∧ c.toNat ≤ 57) || decide (c.toNat = 95)

/-- ASCII model of the regex class `\s` (and of the characters `str.strip`
removes): space, tab, newline, vertical tab, form feed, carriage return. -/
def isSpaceChar (c : Char) : Bool :=
  decide (c.toNat = 32) || decide (c.toNat = 9) || decide (c.toNat = 10) ||
    decide (c.toNat = 11) || decide (c.toNat = 12) || decide (c.toNat = 13)

/-- ASCII model of `str.lower` applied character-wise. -/
def lowerChar (c : Char) : Char :=
  if 65 ≤ c.toNat ∧ c.toNat ≤ 90 then Char.ofNat (c.toNat + 32) else c

/-- `str.lower` on a whole string. -/
def lowerStr (s : Str) : Str := s.map lowerChar

/-- A token of a string: a maximal run of word characters, or a single
non-word character.  Used to model the `\b`-anchored substitutions. -/
inductive Tok where
  | word (w : Str)
  | sep (c : Char)
deriving DecidableEq

/-- Prepend a word character to a token list, merging into an adjacent word
run so that runs remain maximal. -/
def consWordTok (c : Char) : List Tok → List Tok
  | Tok.word w :: ts => Tok.word (c :: w) :: ts
  | ts => Tok.word [c] :: ts

/-- Split a string into maximal word-character runs and single separator
characters. -/
def tokenize : Str → List Tok
  | [] => []
  | c :: r => if isWordChar c then consWordTok c (tokenize r) else Tok.sep c :: tokenize r

/-- Flatten a token list back into a string. -/
def detok : List Tok → Str
  | [] => []
  | Tok.word w :: ts => w ++ detok ts
  | Tok.sep c :: ts => c :: detok ts

/-- The word runs of a token list, in order. -/
def tokWords : List Tok → List Str
  | [] => []
  | Tok.word w :: ts => w :: tokWords ts
  | Tok.sep _ :: ts => tokWords ts

/-- The maximal word-character runs of a string, in order. -/
def wordsOf (s : Str) : List Str := tokWords (tokenize s)

/-- Replace the word runs equal to `w` by a single-space separator. -/
def subWordTok (w : Str) : Tok → Tok
  | Tok.word r => if r = w then Tok.sep ' ' else Tok.word r
  | Tok.sep c => Tok.sep c

/-- Model of `re.sub(r"\b" + word + r"\b", " ", name)` for a pattern `word`
made only of word characters: every maximal word-character run equal to
`word` is replaced by one space. -/
def removeWord (w : Str) (s : Str) : Str :=
  detok ((tokenize s).map (subWordTok w))

/-- The `remove_words` list of `merge_epg.py` (line 21). -/
def remove_words : List Str :=
  ["hd".toList, "hdtv".toList, "tv".toList, "channel".toList, "network".toList,
   "east".toList, "west".toList]

/-- Line 27 of `clean_text`: `name = name.lower()`. -/
def stage_lower (s : Str) : Str := s.map lowerChar

/-- Lines 28-29 of `clean_text`: the stop-word removal loop. -/
def stage_stop (s : Str) : Str := remove_words.foldl (fun t w => removeWord w t) s

/-- Line 30, first call: `name.replace("&", " and ")`. -/
def stage_amp : Str → Str
  | [] => []
  | c :: r => (if c = '&' then " and ".toList else [c]) ++ stage_amp r

/-- Line 30, second call: `.replace("-", " ")`. -/
def stage_dash (s : Str) : Str := s.map fun c => if c = '-' then ' ' else c

/-- Line 31: `regex_remove.sub(" ", name)` with `regex_remove = [^\w\s]`:
every character that is neither a word character nor whitespace becomes a
space. -/
def stage_punct (s : Str) : Str :=
  s.map fun c => if !isWordChar c && !isSpaceChar c then ' ' else c

/-- Body of `collapseWs`; the flag records whether the previous character was
whitespace (in which case further whitespace of the same run is dropped). -/
def collapseAux : Bool → Str → Str
  | _, [] => []
  | prevSpace, c :: r =>
    if isSpaceChar c then
      if prevSpace then collapseAux true r else ' ' :: collapseAux true r
    else c :: collapseAux false r

/-- Line 32: `re.sub(r"\s+", " ", name)`: every maximal whitespace run
becomes a single space. -/
def collapseWs (s : Str) : Str := collapseAux false s

/-- Line 33: `.strip()` — drop whitespace from both ends. -/
def stripStr (s : Str) : Str :=
  ((s.dropWhile isSpaceChar).reverse.dropWhile isSpaceChar).reverse

/-- `clean_text` of `merge_epg.py` (lines 24-33). -/
def clean_text (name : Str) : Str :=
  if name = [] then []
  else stripStr (collapseWs (stage_punct (stage_dash (stage_amp (stage_stop (stage_lower name))))))

example : clean_text "CNN West".toList = "cnn".toList := by decide
example : clean_text "ESPN HD".toList = "espn".toList := by decide
example : clean_text "A&E".toList = "a and e".toList := by decide
example : clean_text "  Fox-News. ".toList = "fox news".toList := by decide
example : clean_text "pacific".toList = "pacific".toList := by decide
example : clean_text "westeros".toList = "westeros".toList := by decide

/-- Lookup in an insertion-ordered association list (Python `dict` read). -/
def dictGet? (k : Str) : List (Str × Str) → Option Str
  | [] => none
  | (k', v) :: d => if k' = k then some v else dictGet? k d

/-- Python `dict` assignment: an existing key keeps its position and gets the
new value; a new key is appended. -/
def dictInsert (k v : Str) : List (Str × Str) → List (Str × Str)
  | [] => [(k, v)]
  | (k', v') :: d => if k' = k then (k', v) :: d else (k', v') :: dictInsert k v d

/-- Python `dict.update(d₂)`: assign every binding of `d₂`, in its insertion
order, into `d₁`. -/
def dictUpdate (d₁ d₂ : List (Str × Str)) : List (Str × Str) :=
  d₂.foldl (fun d kv => dictInsert kv.1 kv.2 d) d₁

/-- Python `set.add`: append the element unless already present. -/
def insertSet (x : Str) (l : List Str) : List Str :=
  if x ∈ l then l else l ++ [x]

/-- Python `set.update`: add every element of `l₂` to `l₁`. -/
def unionSet (l₁ l₂ : List Str) : List Str :=
  l₂.foldl (fun acc x => insertSet x acc) l₁

/-- Shorthand for building alias entries from string literals. -/
def alias_entry (k v : String) : Str × Str := (k.toList, v.toList)

/-- The `EPG_ALIASES` dict of `merge_epg.py` (lines 44-139), in source
order. -/
def EPG_ALIASES : List (Str × Str) :=
  [alias_entry "5_starmax" "5StarMax",
   alias_entry "outermax" "OuterMax",
   alias_entry "moviemax" "MovieMax",
   alias_entry "thrillermax" "ThrillerMax",
   alias_entry "sho×bet" "SHO×BET",
   alias_entry "hbo family" "HBO Family",
   alias_entry "starz encore family" "Starz Encore Family",
   alias_entry "starz encore westerns" "Starz Encore Westerns",
   alias_entry "starz inblack" "Starz InBlack",
   alias_entry "starz kids and family" "Starz Kids & Family",
   alias_entry "wbaldt" "WBAL-DT",
   alias_entry "wdca-dt" "WDCA-DT",
   alias_entry "wdcw-dt" "WDCW-DT",
   alias_entry "wdvm-sd" "WDVM-SD",
   alias_entry "weta kids" "WETA Kids",
   alias_entry "weta uk" "WETA UK",
   alias_entry "weta-hd" "WETA-HD",
   alias_entry "wfdc-dt" "WFDC-DT",
   alias_entry "whut" "WHUT",
   alias_entry "wjla-dt" "WJLA-DT",
   alias_entry "wjz 13" "WJZ 13 (CBS Baltimore)",
   alias_entry "wmar 2" "WMAR 2 (ABC Baltimore)",
   alias_entry "wmpb" "WMPB (PBS Maryland)",
   alias_entry "wnuv-dt" "WNUV-DT",
   alias_entry "wrc-hd" "WRC-HD",
   alias_entry "wttg-dt" "WTTG-DT",
   alias_entry "wusa-hd" "WUSA-HD",
   alias_entry "wzdc" "WZDC",
   alias_entry "aaj tak" "Aaj Tak",
   alias_entry "al ahram tv" "Al Ahram TV",
   alias_entry "al hayat tv" "Al Hayat TV",
   alias_entry "al masriya tv" "Al Masriya TV",
   alias_entry "al nahar tv" "Al Nahar TV",
   alias_entry "al jadeed" "Al Jadeed",
   alias_entry "altavsn" "AltaVsn",
   alias_entry "buzzr" "BUZZR",
   alias_entry "bloomberg television" "Bloomberg Television",
   alias_entry "cbc" "CBC (Egypt)",
   alias_entry "crimes" "CRIMES",
   alias_entry "cwwnuv" "CWWNUV",
   alias_entry "cartoonito" "Cartoonito",
   alias_entry "colors tv" "Colors TV",
   alias_entry "comcast sportsnet mid atlantic" "Comcast SportsNet Mid-Atlantic",
   alias_entry "crime tv" "Crime TV",
   alias_entry "dream tv" "Dream TV",
   alias_entry "e!" "E!",
   alias_entry "fox sports 1" "Fox Sports 1",
   alias_entry "fox sports 2" "Fox Sports 2",
   alias_entry "fox weather" "Fox Weather",
   alias_entry "future tv" "Future TV",
   alias_entry "gettv" "GetTV",
   alias_entry "hsn" "HSN",
   alias_entry "heroes and icons" "Heroes & Icons",
   alias_entry "ion plus" "ION Plus",
   alias_entry "lbci" "LBCI",
   alias_entry "mpt kids" "MPT Kids",
   alias_entry "mpt-2" "MPT-2",
   alias_entry "mpt-hd" "MPT-HD",
   alias_entry "mtv" "MTV",
   alias_entry "mtv lebanon" "MTV Lebanon",
   alias_entry "mtv live" "MTV Live",
   alias_entry "mtv2" "MTV2",
   alias_entry "metv" "MeTV",
   alias_entry "metro" "Metro",
   alias_entry "nbc sports washington" "NBC Sports Washington",
   alias_entry "ndtv" "NDTV",
   alias_entry "nhk world japan" "NHK World Japan",
   alias_entry "newschannel 8" "NewsChannel 8 (WJLA News)",
   alias_entry "nick at nite" "Nick at Nite",
   alias_entry "nickmusic" "NickMusic",
   alias_entry "nile tv international" "Nile TV International",
   alias_entry "otv lebanon" "OTV Lebanon",
   alias_entry "oxygen" "Oxygen",
   alias_entry "republic tv" "Republic TV",
   alias_entry "showtime" "Showtime",
   alias_entry "showtime family zone" "Showtime Family Zone",
   alias_entry "sony tv" "Sony TV",
   alias_entry "star plus" "Star Plus",
   alias_entry "story television" "Story Television",
   alias_entry "sun tv" "Sun TV",
   alias_entry "tcm" "TCM",
   alias_entry "tlc" "TLC",
   alias_entry "tv9" "TV9",
   alias_entry "teennick" "TeenNick",
   alias_entry "telexitos" "Telexitos",
   alias_entry "the movie channel xtra" "The Movie Channel Xtra",
   alias_entry "times now" "Times Now",
   alias_entry "travel channel" "Travel Channel",
   alias_entry "xitos" "XITOS"]

/-- `load_master_list` of `merge_epg.py` (lines 144-155), over an abstract
sequence of file lines.  Returns `(master_cleaned, master_display)`. -/
def load_master_list (lines : List Str) : List (Str × Str) × List Str :=
  lines.foldl
    (fun acc line =>
      let l := stripStr line
      if l ≠ [] ∧ l.head? ≠ some '#' then
        (dictInsert (clean_text l) l acc.1, acc.2 ++ [l])
      else acc)
    ([], [])

/-- ASCII digit test. -/
def isDigitChar (c : Char) : Bool := decide (48 ≤ c.toNat ∧ c.toNat ≤ 57)

/-- Numeric value of a digit string. -/
def natOfDigits (s : Str) : Nat := s.foldl (fun a c => a * 10 + (c.toNat - 48)) 0

/-- Leap-year rule used by `datetime`. -/
def isLeapYear (y : Nat) : Bool :=
  (decide (y % 4 = 0) && decide (y % 100 ≠ 0)) || decide (y % 400 = 0)

/-- Days in a month, as validated by `datetime`. -/
def daysInMonth (y m : Nat) : Nat :=
  if m = 2 then (if isLeapYear y then 29 else 28)
  else if m = 4 ∨ m = 6 ∨ m = 9 ∨ m = 11 then 30 else 31

/-- Model of `datetime.strptime(start_str[:14], "%Y%m%d%H%M%S")` (line 234):
succeeds when the first 14 characters are digits forming a valid date-time,
and returns the timestamp encoded as the number `YYYYMMDDHHMMSS` (for valid
date-times this encoding is strictly monotone in chronological order, so the
`start_dt <= cutoff` comparison of line 239 is the numeric comparison). -/
def parseTs (s : Str) : Option Nat :=
  let t := s.take 14
  if t.length = 14 && t.all isDigitChar then
    let y := natOfDigits (t.take 4)
    let mo := natOfDigits ((t.drop 4).take 2)
    let d := natOfDigits ((t.drop 6).take 2)
    let h := natOfDigits ((t.drop 8).take 2)
    let mi := natOfDigits ((t.drop 10).take 2)
    let se := natOfDigits ((t.drop 12).take 2)
    if 1 ≤ y ∧ mo ≥ 1 ∧ mo ≤ 12 ∧ d ≥ 1 ∧ d ≤ daysInMonth y mo ∧ h ≤ 23 ∧ mi ≤ 59 ∧ se ≤ 59
    then some (natOfDigits t) else none
  else none

/-- A `programme` element as seen by the walker: the `channel` attribute
(`""` when absent), the `start` attribute (`none` when absent), the `title`
child text (`none` when absent), and `extra`, an opaque stand-in for the rest
of the serialized element (so that two programmes with equal dedup keys can
still be distinct elements). -/
structure ProgEvent where
  channel : Str
  start : Option Str
  title : Option Str
  extra : Str
deriving DecidableEq

/-- The dedup key of line 241: `(raw_channel, start_str, title)`. -/
def progKey (p : ProgEvent) : Str × Str × Str :=
  (lowerStr p.channel, p.start.getD [], p.title.getD [])

/-- One `end` event of `ET.iterparse`: a `channel` element (with `id`
attribute and optional `display-name` child text), a `programme` element, or
any other element (ignored by the walker). -/
inductive XmlEvent where
  | channel (rawId : Str) (displayName : Option Str)
  | programme (p : ProgEvent)
  | other
deriving DecidableEq

/-- The state of one `parse_xml_stream` call: its three local accumulators
(`allowed_channel_ids`, `channel_id_to_display`, `programmes`), the local
`unmatched_channels` list, and the module-global
`parse_xml_stream.seen_programmes` set threaded explicitly. -/
structure FeedResult where
  allowed : List Str
  idToDisplay : List (Str × Str)
  programmes : List ProgEvent
  unmatched : List (Str × Str)
  seen : List (Str × Str × Str)
deriving DecidableEq

/-- Line 203: `display = elem.findtext("display-name") or raw_id` — the
display name falls back to the raw id when the child is missing (`none`) or
its text is empty (falsy). -/
def displayOf (rawId : Str) : Option Str → Str
  | some d => if d = [] then rawId else d
  | none => rawId

/-- The loop body of `parse_xml_stream` (lines 200-246) for one element. -/
def processEvent (mc : List (Str × Str)) (am : List Str) (localOnly : Bool) (cutoff : Nat)
    (st : FeedResult) : XmlEvent → FeedResult
  | XmlEvent.channel rawId dispOpt =>
    let display := displayOf rawId dispOpt
    let cleaned := clean_text display
    let cid := lowerStr rawId
    if localOnly = true ∧ cleaned ∉ am then st
    else
      match dictGet? cid EPG_ALIASES with
      | some a =>
        { st with idToDisplay := dictInsert cid a st.idToDisplay,
                  allowed := insertSet cid st.allowed }
      | none =>
        match dictGet? cleaned mc with
        | some disp =>
          { st with idToDisplay := dictInsert cid disp st.idToDisplay,
                    allowed := insertSet cid st.allowed }
        | none => { st with unmatched := st.unmatched ++ [(cid, display)] }
  | XmlEvent.programme p =>
    let rawChannel := lowerStr p.channel
    match p.start with
    | none => st
    | some startStr =>
      if rawChannel = [] ∨ startStr = [] ∨ rawChannel ∉ st.allowed then st
      else
        match parseTs startStr with
        | none => st
        | some startDt =>
          if startDt ≤ cutoff then
            let key := (rawChannel, startStr, p.title.getD [])
            if key ∈ st.seen then st
            else { st with programmes := st.programmes ++ [p], seen := st.seen ++ [key] }
          else st
  | XmlEvent.other => st

/-- An empty per-feed state over a given global dedup set. -/
def emptyFeedResult (seen : List (Str × Str × Str)) : FeedResult :=
  ⟨[], [], [], [], seen⟩

/-- `parse_xml_stream` (lines 184-253) over the feed's element stream:
`cutoff` is the `utcnow() + timedelta(days=days_limit)` bound in the
`YYYYMMDDHHMMSS` encoding; `seen` is the value of the module-global
`parse_xml_stream.seen_programmes` when the call starts. -/
def parse_xml_stream (mc : List (Str × Str)) (am : List Str) (localOnly : Bool) (cutoff : Nat)
    (events : List XmlEvent) (seen : List (Str × Str × Str)) : FeedResult :=
  events.foldl (processEvent mc am localOnly cutoff) (emptyFeedResult seen)

/-- One fetched feed: the `end` events its `ET.iterparse` yields before the
document either ends (`malformed = false`) or raises `ET.ParseError`
(`malformed = true`).  `iterparse` is incremental, so a malformed document
still yields the events of its well-formed prefix that fall in earlier read
blocks before the error surfaces. -/
structure Feed where
  events : List XmlEvent
  malformed : Bool
deriving DecidableEq

/-- The run-global accumulators of `main` (lines 342-397):
`all_channel_ids`, `all_programmes`, `channel_id_to_display`,
`matched_display_names`, and the module-global dedup set. -/
structure RunState where
  allIds : List Str
  allProgs : List ProgEvent
  idMap : List (Str × Str)
  matchedNames : List Str
  seen : List (Str × Str × Str)
deriving DecidableEq

/-- One iteration of the feed loop of `main` (lines 358-373, and 383-394 for
the local feed): walk the feed; on `ET.ParseError` the per-feed results are
discarded (`continue`) but the mutation of the module-global dedup set
survives; otherwise the per-feed results are merged into the run
accumulators. -/
def processFeed (mc : List (Str × Str)) (am : List Str) (cutoff : Nat) (localOnly : Bool)
    (rs : RunState) (f : Feed) : RunState :=
  let r := parse_xml_stream mc am localOnly cutoff f.events rs.seen
  if f.malformed then { rs with seen := r.seen }
  else
    { allIds := unionSet rs.allIds r.allowed,
      allProgs := rs.allProgs ++ r.programmes,
      idMap := dictUpdate rs.idMap r.idToDisplay,
      matchedNames := unionSet rs.matchedNames (r.idToDisplay.map Prod.snd),
      seen := r.seen }

/-- Lexicographic comparison of strings by code point, as Python `sorted`
uses on `str`. -/
def strLt : Str → Str → Bool
  | [], [] => false
  | [], _ :: _ => true
  | _ :: _, [] => false
  | a :: as, b :: bs => decide (a.toNat < b.toNat) || (decide (a = b) && strLt as bs)

/-- Insertion into a sorted list (for the model of `sorted`). -/
def insertSorted (x : Str) : List Str → List Str
  | [] => [x]
  | y :: ys => if strLt x y then x :: y :: ys else y :: insertSorted x ys

/-- Model of Python `sorted` over the id set: insertion sort (stable; the
input list is duplicate-free because it models a set). -/
def sortStr (l : List Str) : List Str := l.foldr insertSorted []

/-- The document written by `save_merged_xml` (lines 260-273): one channel
element per id in `sorted(channel_ids)` with display text
`channel_id_to_display.get(cid, cid)`, then all kept programmes in order. -/
structure Output where
  channels : List (Str × Str)
  programmes : List ProgEvent
deriving DecidableEq

/-- `save_merged_xml` (lines 260-273). -/
def save_merged_xml (channelIds : List Str) (programmes : List ProgEvent)
    (idMap : List (Str × Str)) : Output :=
  { channels := (sortStr channelIds).map fun cid => (cid, (dictGet? cid idMap).getD cid),
    programmes := programmes }

/-- `main` (lines 342-397) over already-fetched feeds: load the master list,
build the `allowed_master_channels` set, process the regular sources, then
the local feed with `local_only=True` (`none` models a failed fetch), and
assemble the output.  `seen₀` is the module-global
`parse_xml_stream.seen_programmes` when `main` starts — `[]` in a fresh
interpreter process.  `cutoff` models the wall clock; the code recomputes
`utcnow()` per feed, which a single parameter represents for runs whose
feeds are processed under the same clock reading. -/
def mainRun (masterLines : List Str) (sources : List Feed) (localFeed : Option Feed)
    (cutoff : Nat) (seen₀ : List (Str × Str × Str)) : RunState × Output :=
  let ml := load_master_list masterLines
  let mc := ml.1
  let am := ml.2.map clean_text
  let rs₀ : RunState := ⟨[], [], [], [], seen₀⟩
  let rs₁ := sources.foldl (processFeed mc am cutoff false) rs₀
  let rs₂ := match localFeed with
    | none => rs₁
    | some lf => processFeed mc am cutoff true rs₁ lf
  (rs₂, save_merged_xml rs₂.allIds rs₂.allProgs rs₂.idMap)

/-- Shorthand: a `channel` element with id and display-name text. -/
def chEv (i d : String) : XmlEvent := XmlEvent.channel i.toList (some d.toList)

/-- Shorthand: a `programme` element with channel, start and title. -/
def prEv (c st ti : String) : XmlEvent :=
  XmlEvent.programme ⟨c.toList, some st.toList, some ti.toList, []⟩

/-- Claim C1, counterexample: the channel `id="west.cnn"` with display name
`"CNN West"` — whose display name contains the whole word "west" — is
accepted and appears in the merged output mapped to the master entry `CNN`;
there is no `EXCLUDED` sentinel and no short-circuit to `NoMatch`. -/
theorem C1_counterexample :
    (mainRun ["CNN".toList] [⟨[chEv "west.cnn" "CNN West"], false⟩] none 0 []).2.channels
      = [("west.cnn".toList, "CNN".toList)] := by decide

/-- Claim C2, counterexample: master list `["ESPN"]` and a candidate channel
`id="zz"` with display `"ESP"`: the normalized candidate `"esp"` is a
substring of the master key `"espn"` (so the claimed Substring tier — and a
fortiori the Fuzzy tier — would match), yet the code leaves the channel
unmatched and the merged output has no channels. -/
theorem C2_counterexample :
    List.IsInfix "esp".toList "espn".toList ∧
    (mainRun ["ESPN".toList] [⟨[chEv "zz" "ESP"], false⟩] none 0 []).2.channels = [] ∧
    (mainRun ["ESPN".toList] [⟨[chEv "zz" "ESP"], false⟩] none 0 []).1.allIds = [] := by decide

/-- Claim C4, counterexample: three feeds; the second is malformed after
yielding an accepted channel and a programme with key
`("espn.b", "20240102000000", "Y")`.  The third, well-formed feed carries
that same programme.  The run keeps only the first feed's programme: the
malformed feed's partial processing polluted the module-global dedup set, so
the third feed's eligible programme is dropped — without the malformed feed
it is kept. -/
theorem C4_counterexample :
    ((mainRun ["ESPN".toList]
        [⟨[chEv "espn.a" "ESPN", prEv "espn.a" "20240101000000" "X"], false⟩,
         ⟨[chEv "espn.b" "ESPN", prEv "espn.b" "20240102000000" "Y"], true⟩,
         ⟨[chEv "espn.b" "ESPN", prEv "espn.b" "20240102000000" "Y"], false⟩]
        none 99999999999999 []).2.programmes.map (fun p => p.title.getD [])
      = ["X".toList]) ∧
    ((mainRun ["ESPN".toList]
        [⟨[chEv "espn.a" "ESPN", prEv "espn.a" "20240101000000" "X"], false⟩,
         ⟨[chEv "espn.b" "ESPN", prEv "espn.b" "20240102000000" "Y"], false⟩]
        none 99999999999999 []).2.programmes.map (fun p => p.title.getD [])
      = ["X".toList, "Y".toList]) := by decide

/-- Claim C5, counterexample: running `main` twice in the same interpreter
process on identical inputs (same master list, same feed bytes, same clock):
the first run keeps the feed's programme, the second run — whose dedup set
is the module-global left over from the first — emits no programmes, so the
two outputs are not identical. -/
theorem C5_counterexample :
    ((mainRun ["ESPN".toList] [⟨[chEv "espn.a" "ESPN", prEv "espn.a" "20240101000000" "X"], false⟩]
        none 99999999999999 []).2.programmes.map (fun p => p.title.getD []) = ["X".toList]) ∧
    ((mainRun ["ESPN".toList] [⟨[chEv "espn.a" "ESPN", prEv "espn.a" "20240101000000" "X"], false⟩]
        none 99999999999999
        ((mainRun ["ESPN".toList]
            [⟨[chEv "espn.a" "ESPN", prEv "espn.a" "20240101000000" "X"], false⟩]
            none 99999999999999 []).1.seen)).2.programmes = []) := by decide

/-- Claim C6, counterexample: feed 1 maps raw id `"x"` (display `"ESPN"`) to
canonical `"ESPN"`; feed 2 carries the same raw id with display
`"Fox News"`, re-evaluates it, and `dict.update` in `main` overwrites the
mapping: the final accepted map sends `"x"` to `"Fox News"`, not to the
first feed's `"ESPN"`. -/
theorem C6_counterexample :
    dictGet? "x".toList
        (mainRun ["ESPN".toList, "Fox News".toList]
          [⟨[chEv "x" "ESPN"], false⟩, ⟨[chEv "x" "Fox News"], false⟩] none 0 []).1.idMap
      = some "Fox News".toList := by decide

/-- Claim C7, counterexample: raw ids `"espn.us"` and `"espn.hd"` both map to
canonical name `"ESPN"`, and the assembled output contains TWO channel
elements (one per raw id), both displaying `"ESPN"` — not one element per
distinct canonical name. -/
theorem C7_counterexample :
    ((mainRun ["ESPN".toList]
        [⟨[chEv "espn.us" "ESPN"], false⟩, ⟨[chEv "espn.hd" "ESPN HD"], false⟩]
        none 0 []).2.channels.map Prod.snd)
      = ["ESPN".toList, "ESPN".toList] := by decide

/-- Claim C8, counterexample: the master lines `"ESPN"` and `"ESPN HD"` both
normalize to the key `"espn"`; after loading, the index maps `"espn"` to the
SECOND line `"ESPN HD"` — the second line silently overwrites the first,
instead of the claimed first-wins-with-warning. -/
theorem C8_counterexample :
    (load_master_list ["ESPN".toList, "ESPN HD".toList]).1
      = [("espn".toList, "ESPN HD".toList)] := by decide

/-- Claim C10, counterexample: a channel element `id="buzzr"` with no
display-name child, walked with `local_only=True` and an empty allowed
master set: its lowercased id is in the alias table, yet the `local_only`
guard skips it before the alias tier, so it is not accepted — the claimed
"accepted exactly when aliased or master-keyed" biconditional fails. -/
theorem C10_counterexample :
    (dictGet? "buzzr".toList EPG_ALIASES = some "BUZZR".toList) ∧
    (processEvent [] [] true 0 (emptyFeedResult [])
        (XmlEvent.channel "buzzr".toList none)).allowed = [] := by decide

/-- A valid code point below the surrogate range round-trips through
`Char.ofNat`. -/
theorem toNat_ofNat_of_lt {n : Nat} (h : n < 55296) : (Char.ofNat n).toNat = n := by
  unfold Char.ofNat
  rw [dif_pos (Or.inl h)]
  rfl

/-- `lowerChar` is idempotent: lowering an already-lowered character changes
nothing. -/
theorem lowerChar_lowerChar (c : Char) : lowerChar (lowerChar c) = lowerChar c := by
  unfold lowerChar
  by_cases h : 65 ≤ c.toNat ∧ c.toNat ≤ 90
  · rw [if_pos h]
    have ht : (Char.ofNat (c.toNat + 32)).toNat = c.toNat + 32 :=
      toNat_ofNat_of_lt (by omega)
    rw [if_neg]
    rw [ht]
    omega
  · rw [if_neg h, if_neg h]

/-- Spaces and lowercase output characters are unchanged by `lowerChar`. -/
theorem lowerChar_eq_self_of_not_upper {c : Char} (h : ¬(65 ≤ c.toNat ∧ c.toNat ≤ 90)) :
    lowerChar c = c := by
  unfold lowerChar
  rw [if_neg h]

/-- Word characters are not whitespace. -/
theorem not_space_of_word {c : Char} (h : isWordChar c = true) : isSpaceChar c = false := by
  unfold isWordChar at h
  unfold isSpaceChar
  simp only [Bool.or_eq_true, decide_eq_true_eq] at h
  simp only [Bool.or_eq_false_iff, decide_eq_false_iff_not]
  omega

/-- Flattening after `consWordTok` restores the prepended character. -/
theorem detok_consWordTok (c : Char) (ts : List Tok) :
    detok (consWordTok c ts) = c :: detok ts := by
  cases ts with
  | nil => rfl
  | cons t ts' => cases t <;> rfl

/-- Unfolding `tokenize` at a word character. -/
theorem tokenize_cons_word {c : Char} (h : isWordChar c = true) (r : Str) :
    tokenize (c :: r) = consWordTok c (tokenize r) := by
  simp [tokenize, h]

/-- Unfolding `tokenize` at a separator character. -/
theorem tokenize_cons_sep {c : Char} (h : isWordChar c = false) (r : Str) :
    tokenize (c :: r) = Tok.sep c :: tokenize r := by
  simp [tokenize, h]

/-- Tokenizing and flattening is the identity. -/
theorem detok_tokenize (s : Str) : detok (tokenize s) = s := by
  induction s with
  | nil => rfl
  | cons c r ih =>
    by_cases h : isWordChar c = true
    · rw [tokenize_cons_word h, detok_consWordTok, ih]
    · rw [tokenize_cons_sep (Bool.eq_false_iff.mpr h), detok, ih]

/-- The head of a token list is not a word run. -/
def headNotWord : List Tok → Prop
  | Tok.word _ :: _ => False
  | _ => True

/-- Well-formed token lists: every word run is nonempty and made of word
characters, every separator is a non-word character, and no two word runs
are adjacent (runs are maximal).  `tokenize` produces exactly these. -/
inductive WF : List Tok → Prop
  | nil : WF []
  | sep {c : Char} {ts : List Tok} : isWordChar c = false → WF ts → WF (Tok.sep c :: ts)
  | word {w : Str} {ts : List Tok} : w ≠ [] → (∀ c ∈ w, isWordChar c = true) →
      headNotWord ts → WF ts → WF (Tok.word w :: ts)

/-- `consWordTok` with a word character preserves well-formedness. -/
theorem WF_consWordTok {c : Char} (hc : isWordChar c = true) {ts : List Tok} (h : WF ts) :
    WF (consWordTok c ts) := by
  cases h with
  | nil =>
    exact WF.word (by simp) (by intro x hx; simp at hx; rw [hx]; exact hc) trivial WF.nil
  | sep hs hts =>
    exact WF.word (by simp) (by intro x hx; simp at hx; rw [hx]; exact hc) trivial
      (WF.sep hs hts)
  | word hne hall hh hts =>
    refine WF.word (by simp) ?_ hh hts
    intro x hx
    rcases List.mem_cons.mp hx with h1 | h2
    · rw [h1]; exact hc
    · exact hall x h2

/-- `tokenize` produces well-formed token lists. -/
theorem WF_tokenize (s : Str) : WF (tokenize s) := by
  induction s with
  | nil => exact WF.nil
  | cons c r ih =>
    by_cases h : isWordChar c = true
    · rw [tokenize_cons_word h]; exact WF_consWordTok h ih
    · rw [tokenize_cons_sep (Bool.eq_false_iff.mpr h)]
      exact WF.sep (Bool.eq_false_iff.mpr h) ih

/-- `consWordTok` on a list that does not start with a word run just
prepends a singleton run. -/
theorem consWordTok_of_headNotWord {ts : List Tok} (h : headNotWord ts) (c : Char) :
    consWordTok c ts = Tok.word [c] :: ts := by
  cases ts with
  | nil => rfl
  | cons t ts' =>
    cases t with
    | word w => exact absurd h (by simp [headNotWord])
    | sep d => rfl

/-- Tokenizing a nonempty all-word-character run followed by a
non-word-headed remainder yields the run as one token. -/
theorem tokenize_word_append {w : Str} (hw : w ≠ []) (hwc : ∀ c ∈ w, isWordChar c = true)
    {r : Str} (hr : headNotWord (tokenize r)) :
    tokenize (w ++ r) = Tok.word w :: tokenize r := by
  induction w with
  | nil => exact absurd rfl hw
  | cons c w' ih =>
    have hc : isWordChar c = true := hwc c (List.mem_cons_self c w')
    by_cases hw' : w' = []
    · subst hw'
      rw [List.singleton_append, tokenize_cons_word hc, consWordTok_of_headNotWord hr]
    · have : tokenize (w' ++ r) = Tok.word w' :: tokenize r :=
        ih hw' (fun x hx => hwc x (List.mem_cons_of_mem c hx))
      rw [List.cons_append, tokenize_cons_word hc, this]
      rfl

/-- Flattening then tokenizing a well-formed token list is the identity. -/
theorem tokenize_detok {ts : List Tok} (h : WF ts) : tokenize (detok ts) = ts := by
  induction h with
  | nil => rfl
  | sep hs _ ih =>
    rw [detok, tokenize_cons_sep hs, ih]
  | word hne hall hh _ ih =>
    rw [detok]
    rw [← ih] at hh
    rw [tokenize_word_append hne hall hh, ih]

/-- `consWordTok` distributes over an append whose right part does not start
with a word run. -/
theorem consWordTok_append {B : List Tok} (hB : headNotWord B) (c : Char) (A : List Tok) :
    consWordTok c (A ++ B) = consWordTok c A ++ B := by
  cases A with
  | nil => rw [List.nil_append, consWordTok_of_headNotWord hB]; rfl
  | cons t A' => cases t <;> rfl

/-- The tokenization of a string whose head is not a word character has no
word run at its head. -/
theorem headNotWord_tokenize {y : Str}
    (h : ∀ c, y.head? = some c → isWordChar c = false) : headNotWord (tokenize y) := by
  cases y with
  | nil => trivial
  | cons c r =>
    rw [tokenize_cons_sep (h c rfl)]
    trivial

/-- `tokenize` distributes over an append whose right part does not start
with a word character. -/
theorem tokenize_append {y : Str} (hy : headNotWord (tokenize y)) (x : Str) :
    tokenize (x ++ y) = tokenize x ++ tokenize y := by
  induction x with
  | nil => rfl
  | cons c x' ih =>
    by_cases h : isWordChar c = true
    · rw [List.cons_append, tokenize_cons_word h, ih, tokenize_cons_word h,
        consWordTok_append hy]
    · rw [List.cons_append, tokenize_cons_sep (Bool.eq_false_iff.mpr h), ih,
        tokenize_cons_sep (Bool.eq_false_iff.mpr h)]
      rfl

/-- `tokWords` distributes over append. -/
theorem tokWords_append (ts us : List Tok) :
    tokWords (ts ++ us) = tokWords ts ++ tokWords us := by
  induction ts with
  | nil => rfl
  | cons t ts' ih => cases t <;> simp [tokWords, ih]

/-- `subWordTok` never puts a word run at the head of a list that had none. -/
theorem headNotWord_map_subWordTok {ts : List Tok} (h : headNotWord ts) (w : Str) :
    headNotWord (ts.map (subWordTok w)) := by
  cases ts with
  | nil => trivial
  | cons t ts' =>
    cases t with
    | word v => exact absurd h (by simp [headNotWord])
    | sep d => simp only [List.map_cons, subWordTok]; trivial

/-- `subWordTok` preserves well-formedness. -/
theorem WF_map_subWordTok (w : Str) {ts : List Tok} (h : WF ts) :
    WF (ts.map (subWordTok w)) := by
  induction h with
  | nil => exact WF.nil
  | sep hs _ ih => exact WF.sep hs ih
  | word hne hall hh _ ih =>
    rename_i v ts' _
    rw [List.map_cons]
    by_cases hv : v = w
    · simp only [subWordTok, if_pos hv]
      exact WF.sep (by decide) ih
    · simp only [subWordTok, if_neg hv]
      exact WF.word hne hall (headNotWord_map_subWordTok hh w) ih

/-- Tokenizing the result of `removeWord` gives exactly the substituted
token list. -/
theorem tokenize_removeWord (w : Str) (s : Str) :
    tokenize (removeWord w s) = (tokenize s).map (subWordTok w) := by
  unfold removeWord
  exact tokenize_detok (WF_map_subWordTok w (WF_tokenize s))

/-- The word runs surviving `subWordTok` are those different from `w`. -/
theorem tokWords_map_subWordTok (w : Str) (ts : List Tok) :
    tokWords (ts.map (subWordTok w)) = (tokWords ts).filter (fun r => decide (r ≠ w)) := by
  induction ts with
  | nil => rfl
  | cons t ts' ih =>
    cases t with
    | word v =>
      by_cases hv : v = w
      · subst hv
        simp [subWordTok, tokWords, List.filter, ih]
      · simp [subWordTok, hv, tokWords, List.filter, ih]
    | sep d => simp [subWordTok, tokWords, ih]

/-- The word runs of `removeWord w s` are those of `s` other than `w`. -/
theorem wordsOf_removeWord (w : Str) (s : Str) :
    wordsOf (removeWord w s) = (wordsOf s).filter (fun r => decide (r ≠ w)) := by
  unfold wordsOf
  rw [tokenize_removeWord, tokWords_map_subWordTok]

/-- `removeWord` leaves strings without a matching run unchanged. -/
theorem removeWord_eq_self {w : Str} {s : Str} (h : ∀ r ∈ wordsOf s, r ≠ w) :
    removeWord w s = s := by
  unfold removeWord
  have hmap : (tokenize s).map (subWordTok w) = tokenize s := by
    have hsub : ∀ r ∈ tokWords (tokenize s), r ≠ w := h
    revert hsub
    generalize tokenize s = ts
    intro hsub
    induction ts with
    | nil => rfl
    | cons t ts' ih =>
      cases t with
      | word v =>
        have hv : v ≠ w := hsub v (by simp [tokWords])
        simp only [List.map_cons, subWordTok, if_neg hv]
        rw [ih (fun r hr => hsub r (by simp [tokWords, hr]))]
      | sep d =>
        simp only [List.map_cons, subWordTok]
        rw [ih (fun r hr => hsub r (by simp [tokWords, hr]))]
  rw [hmap, detok_tokenize]

/-- Characters of the flattened substituted list come from the original
string, or are the inserted space. -/
theorem mem_removeWord {c : Char} {w s : Str} (h : c ∈ removeWord w s) :
    c ∈ s ∨ c = ' ' := by
  unfold removeWord at h
  have : ∀ ts : List Tok, c ∈ detok (ts.map (subWordTok w)) → c ∈ detok ts ∨ c = ' ' := by
    intro ts
    induction ts with
    | nil => intro h'; exact absurd h' (by simp [detok])
    | cons t ts' ih =>
      cases t with
      | word v =>
        by_cases hv : v = w
        · simp only [List.map_cons, subWordTok, if_pos hv, detok, List.mem_cons]
          intro h'
          rcases h' with h1 | h2
          · exact Or.inr h1
          · rcases ih h2 with h3 | h4
            · exact Or.inl (by simp [detok, h3])
            · exact Or.inr h4
        · simp only [List.map_cons, subWordTok, if_neg hv, detok, List.mem_append]
          intro h'
          rcases h' with h1 | h2
          · exact Or.inl (by simp [detok, h1])
          · rcases ih h2 with h3 | h4
            · exact Or.inl (by simp [detok, h3])
            · exact Or.inr h4
      | sep d =>
        simp only [List.map_cons, subWordTok, detok, List.mem_cons]
        intro h'
        rcases h' with h1 | h2
        · exact Or.inl (by simp [detok, h1])
        · rcases ih h2 with h3 | h4
          · exact Or.inl (by simp [detok, h3])
          · exact Or.inr h4
  rcases this (tokenize s) h with h1 | h2
  · rw [detok_tokenize] at h1; exact Or.inl h1
  · exact Or.inr h2

/-- Word runs are nonempty and made of word characters. -/
theorem wordsOf_spec {s : Str} {w : Str} (h : w ∈ wordsOf s) :
    w ≠ [] ∧ ∀ c ∈ w, isWordChar c = true := by
  have : ∀ ts : List Tok, WF ts → w ∈ tokWords ts → w ≠ [] ∧ ∀ c ∈ w, isWordChar c = true := by
    intro ts hwf
    induction hwf with
    | nil => intro h'; exact absurd h' (by simp [tokWords])
    | sep _ _ ih => exact ih
    | word hne hall _ _ ih =>
      intro h'
      rcases List.mem_cons.mp h' with h1 | h2
      · subst h1; exact ⟨hne, hall⟩
      · exact ih h2
  exact this (tokenize s) (WF_tokenize s) h

/-- Characters of a word run of `s` are characters of `s`. -/
theorem mem_of_mem_wordsOf {s w : Str} {c : Char} (hw : w ∈ wordsOf s) (hc : c ∈ w) :
    c ∈ s := by
  have : ∀ ts : List Tok, w ∈ tokWords ts → c ∈ detok ts := by
    intro ts
    induction ts with
    | nil => intro h'; exact absurd h' (by simp [tokWords])
    | cons t ts' ih =>
      cases t with
      | word v =>
        intro h'
        rcases List.mem_cons.mp h' with h1 | h2
        · subst h1; simp [detok, hc]
        · simp [detok, ih h2]
      | sep d =>
        intro h'
        simp [detok, ih h']
  have h2 := this (tokenize s) hw
  rwa [detok_tokenize] at h2

/-- Join words with single spaces (the canonical shape of `clean_text`
output). -/
def joinWords : List Str → Str
  | [] => []
  | [w] => w
  | w :: w' :: ws => w ++ (' ' :: joinWords (w' :: ws))

/-- The token list of a single-space-joined word list. -/
def interTok : List Str → List Tok
  | [] => []
  | [w] => [Tok.word w]
  | w :: w' :: ws => Tok.word w :: Tok.sep ' ' :: interTok (w' :: ws)

/-- The word runs of `interTok` are the given words. -/
theorem tokWords_interTok (ws : List Str) : tokWords (interTok ws) = ws := by
  induction ws with
  | nil => rfl
  | cons w ws' ih =>
    cases ws' with
    | nil => rfl
    | cons w' ws'' => simp [interTok, tokWords, ih]

/-- Tokenizing a single-space join of nonempty all-word-character words
yields exactly the corresponding token list. -/
theorem tokenize_joinWords {ws : List Str}
    (h : ∀ w ∈ ws, w ≠ [] ∧ ∀ c ∈ w, isWordChar c = true) :
    tokenize (joinWords ws) = interTok ws := by
  induction ws with
  | nil => rfl
  | cons w ws' ih =>
    have hw := h w (List.mem_cons_self w ws')
    cases ws' with
    | nil =>
      show tokenize w = [Tok.word w]
      have : tokenize (w ++ ([] : Str)) = Tok.word w :: tokenize [] :=
        tokenize_word_append hw.1 hw.2 trivial
      rwa [List.append_nil] at this
    | cons w' ws'' =>
      show tokenize (w ++ (' ' :: joinWords (w' :: ws''))) = _
      have hsp : isWordChar ' ' = false := by decide
      have h1 : tokenize (' ' :: joinWords (w' :: ws'')) =
          Tok.sep ' ' :: tokenize (joinWords (w' :: ws'')) := tokenize_cons_sep hsp _
      have h2 : headNotWord (tokenize (' ' :: joinWords (w' :: ws''))) := by
        rw [h1]; trivial
      rw [tokenize_word_append hw.1 hw.2 h2, h1,
        ih (fun x hx => h x (List.mem_cons_of_mem w hx))]
      rfl

/-- The word runs of a single-space join of nonempty all-word words are the
words themselves. -/
theorem wordsOf_joinWords {ws : List Str}
    (h : ∀ w ∈ ws, w ≠ [] ∧ ∀ c ∈ w, isWordChar c = true) :
    wordsOf (joinWords ws) = ws := by
  rw [wordsOf, tokenize_joinWords h, tokWords_interTok]

/-- Characters of a joined word list are spaces or word characters of its
words. -/
theorem mem_joinWords {c : Char} {ws : List Str} (h : c ∈ joinWords ws) :
    c = ' ' ∨ ∃ w ∈ ws, c ∈ w := by
  induction ws with
  | nil => exact absurd h (by simp [joinWords])
  | cons w ws' ih =>
    cases ws' with
    | nil =>
      simp only [joinWords] at h
      exact Or.inr ⟨w, List.mem_cons_self w [], h⟩
    | cons w' ws'' =>
      simp only [joinWords] at h
      rcases List.mem_append.mp h with h1 | h2
      · exact Or.inr ⟨w, List.mem_cons_self _ _, h1⟩
      · rcases List.mem_cons.mp h2 with h3 | h4
        · exact Or.inl h3
        · rcases ih h4 with h5 | ⟨v, hv, hcv⟩
          · exact Or.inl h5
          · exact Or.inr ⟨v, List.mem_cons_of_mem _ hv, hcv⟩

/-- A generic helper: mapping a function that fixes every element is the
identity. -/
theorem map_self_of {α : Type} {f : α → α} {l : List α} (h : ∀ x ∈ l, f x = x) :
    l.map f = l := by
  induction l with
  | nil => rfl
  | cons x l' ih =>
    rw [List.map_cons, h x (List.mem_cons_self x l'), ih (fun y hy => h y (List.mem_cons_of_mem x hy))]

/-- Apply a character map inside a token. -/
def tokMap (g : Char → Char) : Tok → Tok
  | Tok.word w => Tok.word (w.map g)
  | Tok.sep c => Tok.sep (g c)

/-- `consWordTok` commutes with `tokMap g` when `g` fixes the prepended
word character. -/
theorem consWordTok_map_tokMap {g : Char → Char} {c : Char} (hg : g c = c) (ts : List Tok) :
    (consWordTok c ts).map (tokMap g) = consWordTok c (ts.map (tokMap g)) := by
  cases ts with
  | nil => simp [consWordTok, tokMap, hg]
  | cons t ts' =>
    cases t with
    | word w => simp [consWordTok, tokMap, hg]
    | sep d => simp [consWordTok, tokMap, hg]

/-- Tokenization commutes with a character map that fixes word characters
and keeps non-word characters non-word. -/
theorem tokenize_map {g : Char → Char} (hword : ∀ c, isWordChar c = true → g c = c)
    (hsep : ∀ c, isWordChar c = false → isWordChar (g c) = false) (s : Str) :
    tokenize (s.map g) = (tokenize s).map (tokMap g) := by
  induction s with
  | nil => rfl
  | cons c r ih =>
    by_cases h : isWordChar c = true
    · have hc := hword c h
      rw [List.map_cons, hc, tokenize_cons_word h, tokenize_cons_word h, ih,
        consWordTok_map_tokMap hc]
    · have h' : isWordChar c = false := Bool.eq_false_iff.mpr h
      rw [List.map_cons, tokenize_cons_sep (hsep c h'), tokenize_cons_sep h', ih]
      rfl

/-- Word runs after `tokMap` are the mapped runs. -/
theorem tokWords_map_tokMap (g : Char → Char) (ts : List Tok) :
    tokWords (ts.map (tokMap g)) = (tokWords ts).map (List.map g) := by
  induction ts with
  | nil => rfl
  | cons t ts' ih => cases t <;> simp [tokMap, tokWords, ih]

/-- A character map that fixes word characters and keeps non-word characters
non-word does not change the word runs of a string. -/
theorem wordsOf_map {g : Char → Char} (hword : ∀ c, isWordChar c = true → g c = c)
    (hsep : ∀ c, isWordChar c = false → isWordChar (g c) = false) (s : Str) :
    wordsOf (s.map g) = wordsOf s := by
  rw [wordsOf, tokenize_map hword hsep, tokWords_map_tokMap, wordsOf]
  exact map_self_of (fun w hw => map_self_of (fun c hc =>
    hword c ((wordsOf_spec hw).2 c hc)))

/-- Whitespace characters are not word characters. -/
theorem not_word_of_space {c : Char} (h : isSpaceChar c = true) : isWordChar c = false := by
  unfold isSpaceChar at h
  unfold isWordChar
  simp only [Bool.or_eq_true, decide_eq_true_eq] at h
  simp only [Bool.or_eq_false_iff, decide_eq_false_iff_not]
  omega

/-- `stage_amp` is an append homomorphism. -/
theorem stage_amp_append (u v : Str) : stage_amp (u ++ v) = stage_amp u ++ stage_amp v := by
  induction u with
  | nil => rfl
  | cons c u' ih => simp [stage_amp, ih]

/-- `stage_amp` fixes strings without an ampersand. -/
theorem stage_amp_eq_self {u : Str} (h : ∀ c ∈ u, c ≠ '&') : stage_amp u = u := by
  induction u with
  | nil => rfl
  | cons c u' ih =>
    rw [stage_amp, if_neg (h c (List.mem_cons_self c u')),
      ih (fun x hx => h x (List.mem_cons_of_mem c hx))]
    rfl

/-- Characters produced by `stage_amp` come from the input or from the
replacement text `" and "`. -/
theorem mem_stage_amp {c : Char} {u : Str} (h : c ∈ stage_amp u) :
    c ∈ u ∨ c ∈ " and ".toList := by
  induction u with
  | nil => exact absurd h (by simp [stage_amp])
  | cons d u' ih =>
    rw [stage_amp] at h
    rcases List.mem_append.mp h with h1 | h2
    · by_cases hd : d = '&'
      · rw [if_pos hd] at h1
        exact Or.inr h1
      · rw [if_neg hd] at h1
        simp only [List.mem_singleton] at h1
        exact Or.inl (by rw [h1]; exact List.mem_cons_self d u')
    · rcases ih h2 with h3 | h4
      · exact Or.inl (List.mem_cons_of_mem d h3)
      · exact Or.inr h4

/-- If a string starts with a non-word character (or is empty), so does its
`stage_amp` image. -/
theorem head_stage_amp {u : Str} (h : ∀ c, u.head? = some c → isWordChar c = false) :
    ∀ c, (stage_amp u).head? = some c → isWordChar c = false := by
  cases u with
  | nil => intro c hc; exact absurd hc (by simp [stage_amp])
  | cons d u' =>
    intro c hc
    by_cases hd : d = '&'
    · rw [stage_amp, if_pos hd] at hc
      have hc' : c = ' ' := by
        have h2 : (some ' ' : Option Char) = some c := hc
        exact (Option.some_inj.mp h2).symm
      rw [hc']
      decide
    · rw [stage_amp, if_neg hd] at hc
      simp only [List.singleton_append, List.head?_cons, Option.some_inj] at hc
      rw [← hc]
      exact h d rfl

/-- Every word run of `stage_amp u` is a word run of `u` or the inserted
word `"and"`. -/
theorem wordsOf_stage_amp {u : Str} {w : Str} (h : w ∈ wordsOf (stage_amp u)) :
    w ∈ wordsOf u ∨ w = "and".toList := by
  have main : ∀ ts : List Tok, WF ts → ∀ v ∈ wordsOf (stage_amp (detok ts)),
      v ∈ tokWords ts ∨ v = "and".toList := by
    intro ts hwf
    induction hwf with
    | nil => intro v hv; exact absurd hv (List.not_mem_nil v)
    | sep hs _ ih =>
      rename_i c ts' _
      intro v hv
      rw [detok] at hv
      by_cases hc : c = '&'
      · rw [stage_amp, if_pos hc] at hv
        have hrest : tokenize (' ' :: stage_amp (detok ts')) =
            Tok.sep ' ' :: tokenize (stage_amp (detok ts')) := tokenize_cons_sep (by decide) _
        have handw : ("and".toList : Str) ≠ [] := by decide
        have handc : ∀ x ∈ ("and".toList : Str), isWordChar x = true := by decide
        have hshape : tokenize (" and ".toList ++ stage_amp (detok ts')) =
            Tok.sep ' ' :: Tok.word "and".toList :: Tok.sep ' ' ::
              tokenize (stage_amp (detok ts')) := by
          show tokenize (' ' :: ("and".toList ++ (' ' :: stage_amp (detok ts')))) = _
          rw [tokenize_cons_sep (by decide)]
          rw [tokenize_word_append handw handc (by rw [hrest]; trivial)]
          rw [hrest]
        rw [wordsOf, hshape] at hv
        simp only [tokWords] at hv
        rcases List.mem_cons.mp hv with h1 | h2
        · exact Or.inr h1
        · rcases ih v h2 with h3 | h4
          · exact Or.inl (by rw [tokWords]; exact h3)
          · exact Or.inr h4
      · rw [stage_amp, if_neg hc, List.singleton_append] at hv
        rw [wordsOf, tokenize_cons_sep hs] at hv
        rw [tokWords] at hv
        rcases ih v hv with h3 | h4
        · exact Or.inl (by rw [tokWords]; exact h3)
        · exact Or.inr h4
    | word hne hall hh hwf ih =>
      rename_i v' ts'
      intro v hv
      rw [detok, stage_amp_append] at hv
      have hvfix : stage_amp v' = v' := stage_amp_eq_self (fun c hc => by
        intro hamp
        have := hall c hc
        rw [hamp] at this
        exact absurd this (by decide))
      rw [hvfix] at hv
      have hheadrest : ∀ c, (stage_amp (detok ts')).head? = some c → isWordChar c = false := by
        apply head_stage_amp
        cases ts' with
        | nil => intro c hc; exact absurd hc (by simp [detok])
        | cons t ts'' =>
          cases t with
          | word => exact absurd hh (by simp [headNotWord])
          | sep d =>
            intro c hc
            rw [detok, List.head?_cons, Option.some_inj] at hc
            rw [← hc]
            cases hwf with
            | sep hd _ => exact hd
      rw [wordsOf, tokenize_word_append hne hall (headNotWord_tokenize hheadrest)] at hv
      rw [tokWords] at hv
      rcases List.mem_cons.mp hv with h1 | h2
      · exact Or.inl (by rw [tokWords, h1]; exact List.mem_cons_self _ _)
      · rcases ih v h2 with h3 | h4
        · exact Or.inl (by rw [tokWords]; exact List.mem_cons_of_mem _ h3)
        · exact Or.inr h4
  have h2 := main (tokenize u) (WF_tokenize u)
  rw [detok_tokenize] at h2
  exact h2 w h

/-- Space marker for an optional boundary character. -/
def optSpaceMark : Option Char → Str
  | some c => if isSpaceChar c then [' '] else []
  | none => []

/-- Marker for a trailing whitespace character. -/
def tailMark (t : Str) : Str := optSpaceMark t.getLast?

/-- Marker for a leading whitespace character. -/
def leadMark (t : Str) : Str := optSpaceMark t.head?

/-- `leadMark` looks only at the first character. -/
theorem leadMark_cons (c : Char) (r : Str) :
    leadMark (c :: r) = if isSpaceChar c then [' '] else [] := rfl

/-- `tailMark` ignores a leading character when the rest is nonempty. -/
theorem tailMark_cons {c : Char} {r : Str} (h : r ≠ []) : tailMark (c :: r) = tailMark r := by
  cases r with
  | nil => exact absurd rfl h
  | cons d r' => unfold tailMark; rw [List.getLast?_cons_cons]

/-- `tailMark` of a single character. -/
theorem tailMark_singleton (c : Char) :
    tailMark [c] = if isSpaceChar c then [' '] else [] := by
  unfold tailMark
  rw [List.getLast?_singleton]
  rfl

/-- `tailMark` via a known last element. -/
theorem tailMark_eq_of_getLast? {t : Str} {c : Char} (h : t.getLast? = some c) :
    tailMark t = if isSpaceChar c then [' '] else [] := by
  unfold tailMark
  rw [h]
  rfl

/-- `collapseAux` on the empty string. -/
theorem collapseAux_nil (b : Bool) : collapseAux b [] = [] := rfl

/-- `collapseAux` drops whitespace after whitespace. -/
theorem collapseAux_cons_space_true {c : Char} (h : isSpaceChar c = true) (r : Str) :
    collapseAux true (c :: r) = collapseAux true r := by
  simp [collapseAux, h]

/-- `collapseAux` emits one space at the start of a whitespace run. -/
theorem collapseAux_cons_space_false {c : Char} (h : isSpaceChar c = true) (r : Str) :
    collapseAux false (c :: r) = ' ' :: collapseAux true r := by
  simp [collapseAux, h]

/-- `collapseAux` copies non-whitespace characters. -/
theorem collapseAux_cons_word {c : Char} (h : isSpaceChar c = false) (b : Bool) (r : Str) :
    collapseAux b (c :: r) = c :: collapseAux false r := by
  cases b <;> simp [collapseAux, h]

/-- A word run added by `consWordTok` keeps the run list nonempty. -/
theorem tokWords_consWordTok_ne_nil (c : Char) (ts : List Tok) :
    tokWords (consWordTok c ts) ≠ [] := by
  cases ts with
  | nil => simp [consWordTok, tokWords]
  | cons t ts' => cases t <;> simp [consWordTok, tokWords]

/-- The word runs of a string starting with a separator. -/
theorem wordsOf_cons_sep {c : Char} {r : Str} (h : isWordChar c = false) :
    wordsOf (c :: r) = wordsOf r := by
  rw [wordsOf, tokenize_cons_sep h, tokWords, wordsOf]

/-- A string starting with a word character has at least one word run. -/
theorem wordsOf_cons_word_ne_nil {c : Char} (h : isWordChar c = true) (r : Str) :
    wordsOf (c :: r) ≠ [] := by
  rw [wordsOf, tokenize_cons_word h]
  exact tokWords_consWordTok_ne_nil c (tokenize r)

/-- `consWordTok` always yields a word-headed list. -/
theorem consWordTok_shape (c : Char) (ts : List Tok) :
    ∃ v ts', consWordTok c ts = Tok.word v :: ts' := by
  cases ts with
  | nil => exact ⟨[c], [], rfl⟩
  | cons t ts' =>
    cases t with
    | word w => exact ⟨c :: w, ts', rfl⟩
    | sep d => exact ⟨[c], Tok.sep d :: ts', rfl⟩

/-- The word runs of a one-word-character string. -/
theorem wordsOf_singleton {c : Char} (h : isWordChar c = true) : wordsOf [c] = [[c]] := by
  rw [wordsOf, tokenize_cons_word h]
  rfl

/-- A string with no word runs has only separator characters. -/
theorem wordsOf_nil_all_sep {r : Str} (h : wordsOf r = []) :
    ∀ c ∈ r, isWordChar c = false := by
  induction r with
  | nil => intro c hc; exact absurd hc (List.not_mem_nil c)
  | cons d r' ih =>
    intro c hc
    by_cases hd : isWordChar d = true
    · rw [wordsOf, tokenize_cons_word hd] at h
      exact absurd h (tokWords_consWordTok_ne_nil d (tokenize r'))
    · have hd' : isWordChar d = false := Bool.eq_false_iff.mpr hd
      rw [wordsOf_cons_sep hd'] at h
      rcases List.mem_cons.mp hc with h1 | h2
      · rw [h1]; exact hd'
      · exact ih h c h2

/-- Prepending a character to the first word distributes over `joinWords`. -/
theorem joinWords_cons_cons (c : Char) (v : Str) (rest : List Str) :
    joinWords ((c :: v) :: rest) = c :: joinWords (v :: rest) := by
  cases rest <;> rfl

/-- Shape of `collapseAux` output on word-or-whitespace strings, for both
values of the flag: word runs joined by single spaces, with markers for
leading/trailing whitespace. -/
theorem collapseAux_spec (t : Str) :
    (∀ c ∈ t, isWordChar c = true ∨ isSpaceChar c = true) →
    collapseAux true t = (if wordsOf t = [] then [] else joinWords (wordsOf t) ++ tailMark t) ∧
    collapseAux false t = (if t = [] then []
      else if wordsOf t = [] then [' ']
      else leadMark t ++ (joinWords (wordsOf t) ++ tailMark t)) := by
  induction t with
  | nil =>
    intro _
    constructor <;> rfl
  | cons c r ih =>
    intro h
    have hr : ∀ x ∈ r, isWordChar x = true ∨ isSpaceChar x = true :=
      fun x hx => h x (List.mem_cons_of_mem c hx)
    obtain ⟨ihT, ihF⟩ := ih hr
    by_cases hsp : isSpaceChar c = true
    · -- whitespace head
      have hw : isWordChar c = false := not_word_of_space hsp
      have hwords : wordsOf (c :: r) = wordsOf r := wordsOf_cons_sep hw
      constructor
      · rw [collapseAux_cons_space_true hsp, ihT, hwords]
        by_cases hwr : wordsOf r = []
        · rw [if_pos hwr, if_pos hwr]
        · have hrne : r ≠ [] := by
            intro hre; rw [hre] at hwr; exact hwr rfl
          rw [if_neg hwr, if_neg hwr, tailMark_cons hrne]
      · rw [collapseAux_cons_space_false hsp, ihT, hwords]
        rw [if_neg (List.cons_ne_nil c r)]
        by_cases hwr : wordsOf r = []
        · rw [if_pos hwr, if_pos hwr]
        · have hrne : r ≠ [] := by
            intro hre; rw [hre] at hwr; exact hwr rfl
          rw [if_neg hwr, if_neg hwr, tailMark_cons hrne, leadMark_cons, if_pos hsp]
          rfl
    · -- word-character head
      have hsp' : isSpaceChar c = false := Bool.eq_false_iff.mpr hsp
      have hwc : isWordChar c = true := by
        rcases h c (List.mem_cons_self c r) with h1 | h2
        · exact h1
        · exact absurd h2 hsp
      have hlead : leadMark (c :: r) = [] := by
        rw [leadMark_cons, if_neg (by rw [hsp']; simp)]
      have key : c :: collapseAux false r =
          joinWords (wordsOf (c :: r)) ++ tailMark (c :: r) := by
        cases r with
        | nil =>
          rw [collapseAux_nil]
          rw [wordsOf_singleton hwc, tailMark_singleton, if_neg (by rw [hsp']; simp)]
          rfl
        | cons d r' =>
          rw [ihF, if_neg (List.cons_ne_nil d r')]
          by_cases hwd : isWordChar d = true
          · -- next char continues the word run
            obtain ⟨v, ts, hshape⟩ := consWordTok_shape d (tokenize r')
            have htok : tokenize (d :: r') = Tok.word v :: ts := by
              rw [tokenize_cons_word hwd]; exact hshape
            have hwr : wordsOf (d :: r') = v :: tokWords ts := by
              rw [wordsOf, htok, tokWords]
            have hwcr : wordsOf (c :: d :: r') = (c :: v) :: tokWords ts := by
              rw [wordsOf, tokenize_cons_word hwc, htok]
              rfl
            have hwdsp : isSpaceChar d = false := by
              cases hx : isSpaceChar d with
              | false => rfl
              | true => exact absurd hwd (by rw [not_word_of_space hx]; simp)
            have hleadr : leadMark (d :: r') = [] := by
              rw [leadMark_cons, if_neg (by rw [hwdsp]; simp)]
            rw [if_neg (by rw [hwr]; exact List.cons_ne_nil _ _), hleadr, hwr, hwcr,
              tailMark_cons (List.cons_ne_nil d r'), joinWords_cons_cons]
            rfl
          · -- next char is whitespace: current run is the singleton [c]
            have hwd' : isWordChar d = false := Bool.eq_false_iff.mpr hwd
            have hsd : isSpaceChar d = true := by
              rcases hr d (List.mem_cons_self d r') with h1 | h2
              · exact absurd h1 (by rw [hwd']; simp)
              · exact h2
            have hwcr : wordsOf (c :: d :: r') = [c] :: wordsOf (d :: r') := by
              rw [wordsOf, tokenize_cons_word hwc, tokenize_cons_sep hwd',
                consWordTok_of_headNotWord (by trivial), tokWords, tokWords,
                wordsOf_cons_sep hwd', wordsOf]
            have hleadr : leadMark (d :: r') = [' '] := by
              rw [leadMark_cons, if_pos hsd]
            by_cases hwr : wordsOf (d :: r') = []
            · rw [if_pos hwr, hwcr, hwr]
              have hallsep := wordsOf_nil_all_sep hwr
              have hlast : tailMark (c :: d :: r') = [' '] := by
                rw [tailMark_cons (List.cons_ne_nil d r'),
                  tailMark_eq_of_getLast? (List.getLast?_eq_getLast _ (List.cons_ne_nil d r'))]
                have hmem := List.getLast_mem (List.cons_ne_nil d r')
                rcases hr _ hmem with h1 | h2
                · exact absurd h1 (by rw [hallsep _ hmem]; simp)
                · rw [if_pos h2]
              rw [hlast]
              rfl
            · rw [if_neg hwr, hwcr, hleadr]
              obtain ⟨w, ws, hw⟩ := List.exists_cons_of_ne_nil hwr
              rw [hw, tailMark_cons (List.cons_ne_nil d r')]
              show c :: ' ' :: (joinWords (w :: ws) ++ tailMark (d :: r')) = _
              rw [joinWords_cons_cons]
              show _ = ([c] ++ (' ' :: joinWords (w :: ws))) ++ tailMark (d :: r')
              simp only [List.cons_append, List.nil_append, List.append_assoc]
      constructor
      · rw [collapseAux_cons_word hsp' true, key,
          if_neg (wordsOf_cons_word_ne_nil hwc r)]
      · rw [collapseAux_cons_word hsp' false, key,
          if_neg (List.cons_ne_nil c r), if_neg (wordsOf_cons_word_ne_nil hwc r), hlead]
        rfl

/-- An element selected by `getLast?` is a member. -/
theorem mem_of_getLast?_eq {l : Str} {x : Char} (h : l.getLast? = some x) : x ∈ l := by
  obtain ⟨hne, hx⟩ := List.mem_getLast?_eq_getLast (show x ∈ l.getLast? from by rw [h]; rfl)
  rw [hx]
  exact List.getLast_mem hne

/-- `dropWhile` is the identity when the head fails the predicate. -/
theorem dropWhile_eq_self_of_head {J : Str} (hne : J ≠ [])
    (hh : ∀ c, J.head? = some c → isSpaceChar c = false) :
    J.dropWhile isSpaceChar = J := by
  obtain ⟨c, J', hJ⟩ := List.exists_cons_of_ne_nil hne
  subst hJ
  rw [List.dropWhile_cons, hh c rfl]
  simp

/-- `stripStr` removes exactly the optional single-space markers around a
string with non-whitespace first and last characters. -/
theorem stripStr_marked {J : Str} (hne : J ≠ [])
    (hh : ∀ c, J.head? = some c → isSpaceChar c = false)
    (hl : ∀ c, J.getLast? = some c → isSpaceChar c = false)
    {lead tail : Str} (hlead : lead = [] ∨ lead = [' ']) (htail : tail = [] ∨ tail = [' ']) :
    stripStr (lead ++ (J ++ tail)) = J := by
  have hrevne : J.reverse ≠ [] := by
    intro hx
    exact hne (List.reverse_eq_nil_iff.mp hx)
  have hrevdrop : J.reverse.dropWhile isSpaceChar = J.reverse := by
    apply dropWhile_eq_self_of_head hrevne
    intro c hc
    rw [List.head?_reverse] at hc
    exact hl c hc
  have hJtne : J ++ tail ≠ [] := by
    intro hx
    rcases List.append_eq_nil.mp hx with ⟨h1, _⟩
    exact hne h1
  have hJtail : (J ++ tail).dropWhile isSpaceChar = J ++ tail := by
    apply dropWhile_eq_self_of_head hJtne
    intro c hc
    rw [List.head?_append_of_ne_nil _ hne] at hc
    exact hh c hc
  unfold stripStr
  have hdrop : (lead ++ (J ++ tail)).dropWhile isSpaceChar = J ++ tail := by
    rcases hlead with h1 | h1
    · rw [h1, List.nil_append]
      exact hJtail
    · rw [h1, List.singleton_append, List.dropWhile_cons,
        if_pos (show isSpaceChar ' ' = true by decide)]
      exact hJtail
  rw [hdrop]
  rcases htail with h2 | h2
  · rw [h2, List.append_nil, hrevdrop, List.reverse_reverse]
  · rw [h2, List.reverse_append]
    show (((' ' : Char) :: J.reverse).dropWhile isSpaceChar).reverse = J
    rw [List.dropWhile_cons, if_pos (show isSpaceChar ' ' = true by decide), hrevdrop,
      List.reverse_reverse]

/-- A join of nonempty words over a nonempty word list is nonempty. -/
theorem joinWords_ne_nil {ws : List Str} (hne : ws ≠ []) (h : ∀ w ∈ ws, w ≠ []) :
    joinWords ws ≠ [] := by
  cases ws with
  | nil => exact absurd rfl hne
  | cons w ws' =>
    cases ws' with
    | nil => exact h w (List.mem_cons_self w [])
    | cons w' ws'' =>
      rw [joinWords]
      intro hx
      rcases List.append_eq_nil.mp hx with ⟨h1, _⟩
      exact h w (List.mem_cons_self _ _) h1

/-- The first character of a join of nonempty all-word words is a word
character, hence not whitespace. -/
theorem joinWords_head_not_space {ws : List Str}
    (h : ∀ w ∈ ws, w ≠ [] ∧ ∀ c ∈ w, isWordChar c = true) :
    ∀ c, (joinWords ws).head? = some c → isSpaceChar c = false := by
  cases ws with
  | nil => intro c hc; exact absurd hc (by rw [joinWords]; intro h'; cases h')
  | cons w ws' =>
    obtain ⟨hne, hall⟩ := h w (List.mem_cons_self w ws')
    obtain ⟨d, w', hw⟩ := List.exists_cons_of_ne_nil hne
    have hd : (joinWords (w :: ws')).head? = some d := by
      cases ws' with
      | nil => rw [joinWords, hw]; rfl
      | cons w'' ws'' =>
        rw [joinWords, List.head?_append_of_ne_nil _ hne, hw]
        rfl
    intro c hc
    rw [hd, Option.some_inj] at hc
    rw [← hc]
    exact not_space_of_word (hall d (by rw [hw]; exact List.mem_cons_self d w'))

/-- The last character of a join of nonempty all-word words is a word
character, hence not whitespace. -/
theorem joinWords_getLast_not_space {ws : List Str}
    (h : ∀ w ∈ ws, w ≠ [] ∧ ∀ c ∈ w, isWordChar c = true) :
    ∀ c, (joinWords ws).getLast? = some c → isSpaceChar c = false := by
  induction ws with
  | nil => intro c hc; exact absurd hc (by rw [joinWords]; intro h'; cases h')
  | cons w ws' ih =>
    cases ws' with
    | nil =>
      intro c hc
      rw [joinWords] at hc
      exact not_space_of_word ((h w (List.mem_cons_self w [])).2 c (mem_of_getLast?_eq hc))
    | cons w' ws'' =>
      have htail : ∀ v ∈ w' :: ws'', v ≠ [] ∧ ∀ c ∈ v, isWordChar c = true :=
        fun v hv => h v (List.mem_cons_of_mem w hv)
      have hJne : joinWords (w' :: ws'') ≠ [] :=
        joinWords_ne_nil (List.cons_ne_nil w' ws'') (fun v hv => (htail v hv).1)
      obtain ⟨x, J₂, hJ⟩ := List.exists_cons_of_ne_nil hJne
      intro c hc
      rw [joinWords, List.getLast?_append_of_ne_nil _ (List.cons_ne_nil ' ' _), hJ,
        List.getLast?_cons_cons, ← hJ] at hc
      exact ih htail c hc

/-- `optSpaceMark` is empty or a single space. -/
theorem optSpaceMark_cases (o : Option Char) : optSpaceMark o = [] ∨ optSpaceMark o = [' '] := by
  cases o with
  | none => exact Or.inl rfl
  | some c =>
    show (if isSpaceChar c then [' '] else []) = [] ∨
      (if isSpaceChar c then [' '] else []) = [' ']
    by_cases hc : isSpaceChar c = true
    · rw [if_pos hc]; exact Or.inr rfl
    · rw [if_neg hc]; exact Or.inl rfl

/-- Stripping the whitespace-collapsed form of a word-or-whitespace string
yields its word runs joined by single spaces. -/
theorem strip_collapse {t : Str} (h : ∀ c ∈ t, isWordChar c = true ∨ isSpaceChar c = true) :
    stripStr (collapseWs t) = joinWords (wordsOf t) := by
  have hF := (collapseAux_spec t h).2
  unfold collapseWs
  rw [hF]
  by_cases ht : t = []
  · rw [if_pos ht]
    subst ht
    rfl
  · rw [if_neg ht]
    by_cases hw : wordsOf t = []
    · rw [if_pos hw, hw]
      decide
    · rw [if_neg hw]
      have hspec : ∀ w ∈ wordsOf t, w ≠ [] ∧ ∀ c ∈ w, isWordChar c = true :=
        fun w hwm => wordsOf_spec hwm
      exact stripStr_marked
        (joinWords_ne_nil hw (fun w hwm => (hspec w hwm).1))
        (joinWords_head_not_space hspec)
        (joinWords_getLast_not_space hspec)
        (optSpaceMark_cases _) (optSpaceMark_cases _)

/-- The word runs of the pre-collapse pipeline value of `clean_text`. -/
def cleanWords (s : Str) : List Str :=
  wordsOf (stage_punct (stage_dash (stage_amp (stage_stop (stage_lower s)))))

/-- Canonical word lists: every word is nonempty, made of lower-fixed word
characters, and is not a stop word.  `clean_text` output joins such lists. -/
def CanonWords (ws : List Str) : Prop :=
  ∀ w ∈ ws, (w ≠ [] ∧ ∀ c ∈ w, isWordChar c = true ∧ lowerChar c = c) ∧ w ∉ remove_words

/-- Characters after the stop-word loop come from the input or are inserted
spaces. -/
theorem mem_stage_stop {c : Char} {u : Str} (h : c ∈ stage_stop u) : c ∈ u ∨ c = ' ' := by
  unfold stage_stop at h
  have main : ∀ (L : List Str) (v : Str), c ∈ L.foldl (fun t w => removeWord w t) v →
      c ∈ v ∨ c = ' ' := by
    intro L
    induction L with
    | nil => intro v h'; exact Or.inl h'
    | cons w L' ih =>
      intro v h'
      rw [List.foldl_cons] at h'
      rcases ih (removeWord w v) h' with h1 | h2
      · exact mem_removeWord h1
      · exact Or.inr h2
  exact main remove_words u h

/-- Characters after `stage_dash` come from the input or are spaces. -/
theorem mem_stage_dash {c : Char} {u : Str} (h : c ∈ stage_dash u) : c ∈ u ∨ c = ' ' := by
  unfold stage_dash at h
  obtain ⟨d, hd, hc⟩ := List.mem_map.mp h
  by_cases h' : d = '-'
  · rw [if_pos h'] at hc
    exact Or.inr hc.symm
  · rw [if_neg h'] at hc
    rw [← hc]
    exact Or.inl hd

/-- Characters after `stage_punct` come from the input or are spaces. -/
theorem mem_stage_punct {c : Char} {u : Str} (h : c ∈ stage_punct u) : c ∈ u ∨ c = ' ' := by
  unfold stage_punct at h
  obtain ⟨d, hd, hc⟩ := List.mem_map.mp h
  by_cases h' : (!isWordChar d && !isSpaceChar d) = true
  · rw [if_pos h'] at hc
    exact Or.inr hc.symm
  · rw [if_neg h'] at hc
    rw [← hc]
    exact Or.inl hd

/-- Every character of `stage_punct` output is a word character or
whitespace. -/
theorem stage_punct_chars (u : Str) :
    ∀ c ∈ stage_punct u, isWordChar c = true ∨ isSpaceChar c = true := by
  intro c hc
  unfold stage_punct at hc
  obtain ⟨d, _, hcd⟩ := List.mem_map.mp hc
  by_cases h' : (!isWordChar d && !isSpaceChar d) = true
  · rw [if_pos h'] at hcd
    rw [← hcd]
    right
    decide
  · rw [if_neg h'] at hcd
    rw [← hcd]
    rcases Bool.and_eq_false_iff.mp (Bool.eq_false_iff.mpr h') with h1 | h1
    · left
      cases hx : isWordChar d with
      | true => rfl
      | false => rw [hx] at h1; exact absurd h1 (by decide)
    · right
      cases hx : isSpaceChar d with
      | true => rfl
      | false => rw [hx] at h1; exact absurd h1 (by decide)

/-- Every character of the pre-collapse pipeline value is fixed by
`lowerChar`. -/
theorem clean_pipeline_lower_fixed (s : Str) :
    ∀ c ∈ stage_punct (stage_dash (stage_amp (stage_stop (stage_lower s)))), lowerChar c = c := by
  intro c hc
  have hsp : lowerChar ' ' = ' ' := by decide
  rcases mem_stage_punct hc with h4 | h4
  · rcases mem_stage_dash h4 with h3 | h3
    · rcases mem_stage_amp h3 with h2 | h2
      · rcases mem_stage_stop h2 with h1 | h1
        · obtain ⟨d, _, hd⟩ := List.mem_map.mp h1
          rw [← hd]
          exact lowerChar_lowerChar d
        · rw [h1]; exact hsp
      · have h2' : c ∈ [' ', 'a', 'n', 'd', ' '] := h2
        simp only [List.mem_cons, List.not_mem_nil, or_false] at h2'
        rcases h2' with rfl | rfl | rfl | rfl | rfl <;> decide
    · rw [h3]; exact hsp
  · rw [h4]; exact hsp

/-- The word runs of `stage_dash` output equal those of its input. -/
theorem wordsOf_stage_dash (u : Str) : wordsOf (stage_dash u) = wordsOf u := by
  unfold stage_dash
  apply wordsOf_map
  · intro c hc
    rw [if_neg]
    intro he
    rw [he] at hc
    exact absurd hc (by decide)
  · intro c hc
    by_cases he : c = '-'
    · rw [if_pos he]; decide
    · rw [if_neg he]; exact hc

/-- The word runs of `stage_punct` output equal those of its input. -/
theorem wordsOf_stage_punct (u : Str) : wordsOf (stage_punct u) = wordsOf u := by
  unfold stage_punct
  apply wordsOf_map
  · intro c hc
    rw [if_neg]
    rw [hc]
    simp
  · intro c hc
    by_cases he : (!isWordChar c && !isSpaceChar c) = true
    · rw [if_pos he]; decide
    · rw [if_neg he]; exact hc

/-- Word runs surviving the stop-word loop are word runs of the input that
are not stop words. -/
theorem stage_stop_words {u w : Str} (h : w ∈ wordsOf (stage_stop u)) :
    w ∈ wordsOf u ∧ w ∉ remove_words := by
  unfold stage_stop at h
  have main : ∀ (L : List Str) (v : Str), w ∈ wordsOf (L.foldl (fun t x => removeWord x t) v) →
      w ∈ wordsOf v ∧ ∀ x ∈ L, w ≠ x := by
    intro L
    induction L with
    | nil =>
      intro v h'
      exact ⟨h', fun x hx => absurd hx (List.not_mem_nil x)⟩
    | cons x L' ih =>
      intro v h'
      rw [List.foldl_cons] at h'
      obtain ⟨hmem, hne⟩ := ih (removeWord x v) h'
      rw [wordsOf_removeWord] at hmem
      obtain ⟨hv, hx⟩ := List.mem_filter.mp hmem
      refine ⟨hv, ?_⟩
      intro y hy
      rcases List.mem_cons.mp hy with h1 | h2
      · rw [h1]; exact of_decide_eq_true hx
      · exact hne y h2
  obtain ⟨hv, hall⟩ := main remove_words u h
  exact ⟨hv, fun hmem => hall w hmem rfl⟩

/-- A-direction: `clean_text` output is the single-space join of its
canonical word list. -/
theorem clean_text_eq_joinWords (s : Str) : clean_text s = joinWords (cleanWords s) := by
  by_cases hs : s = []
  · subst hs
    rfl
  · unfold clean_text
    rw [if_neg hs]
    exact strip_collapse (stage_punct_chars _)

/-- A-direction: the canonical word list of any input really is canonical. -/
theorem cleanWords_canonical (s : Str) : CanonWords (cleanWords s) := by
  intro w hw
  have hspec := wordsOf_spec hw
  refine ⟨⟨hspec.1, ?_⟩, ?_⟩
  · intro c hc
    exact ⟨hspec.2 c hc, clean_pipeline_lower_fixed s c (mem_of_mem_wordsOf hw hc)⟩
  · have hw' := hw
    unfold cleanWords at hw'
    rw [wordsOf_stage_punct, wordsOf_stage_dash] at hw'
    rcases wordsOf_stage_amp hw' with h1 | h1
    · exact (stage_stop_words h1).2
    · rw [h1]
      decide

/-- B-direction: `clean_text` fixes the single-space join of any canonical
word list. -/
theorem clean_text_joinWords_fixed {ws : List Str} (h : CanonWords ws) :
    clean_text (joinWords ws) = joinWords ws := by
  by_cases hws : ws = []
  · subst hws
    rfl
  · have hwne : ∀ w ∈ ws, w ≠ [] := fun w hw => ((h w hw).1).1
    have hwordchars : ∀ w ∈ ws, w ≠ [] ∧ ∀ c ∈ w, isWordChar c = true :=
      fun w hw => ⟨((h w hw).1).1, fun c hc => (((h w hw).1).2 c hc).1⟩
    have htne : joinWords ws ≠ [] := joinWords_ne_nil hws hwne
    have hchars : ∀ c ∈ joinWords ws, (isWordChar c = true ∧ lowerChar c = c) ∨ c = ' ' := by
      intro c hc
      rcases mem_joinWords hc with h1 | ⟨w, hw, hcw⟩
      · exact Or.inr h1
      · exact Or.inl (((h w hw).1).2 c hcw)
    have hwordsT : wordsOf (joinWords ws) = ws := wordsOf_joinWords hwordchars
    have h1 : stage_lower (joinWords ws) = joinWords ws := by
      apply map_self_of
      intro c hc
      rcases hchars c hc with ⟨_, h2⟩ | h2
      · exact h2
      · rw [h2]; decide
    have h2 : stage_stop (joinWords ws) = joinWords ws := by
      unfold stage_stop
      have main : ∀ (L : List Str), (∀ v ∈ L, v ∈ remove_words) →
          L.foldl (fun t' v => removeWord v t') (joinWords ws) = joinWords ws := by
        intro L
        induction L with
        | nil => intro _; rfl
        | cons v L' ih =>
          intro hL
          rw [List.foldl_cons, removeWord_eq_self, ih (fun x hx => hL x (List.mem_cons_of_mem v hx))]
          intro r hr
          rw [hwordsT] at hr
          intro hrv
          exact (h r hr).2 (hrv ▸ hL v (List.mem_cons_self v L'))
      exact main remove_words (fun v hv => hv)
    have h3 : stage_amp (joinWords ws) = joinWords ws := by
      apply stage_amp_eq_self
      intro c hc hamp
      rcases hchars c hc with ⟨hw, _⟩ | hsp
      · rw [hamp] at hw
        exact absurd hw (by decide)
      · rw [hamp] at hsp
        exact absurd hsp (by decide)
    have h4 : stage_dash (joinWords ws) = joinWords ws := by
      apply map_self_of
      intro c hc
      rw [if_neg]
      intro he
      rcases hchars c hc with ⟨hw, _⟩ | hsp
      · rw [he] at hw
        exact absurd hw (by decide)
      · rw [he] at hsp
        exact absurd hsp (by decide)
    have h5 : stage_punct (joinWords ws) = joinWords ws := by
      apply map_self_of
      intro c hc
      rw [if_neg]
      rcases hchars c hc with ⟨hw, _⟩ | hsp
      · rw [hw]; simp
      · rw [hsp]; decide
    unfold clean_text
    rw [if_neg htne, h1, h2, h3, h4, h5,
      strip_collapse (fun c hc => by
        rcases hchars c hc with ⟨hw, _⟩ | hsp
        · exact Or.inl hw
        · rw [hsp]; exact Or.inr (by decide)),
      hwordsT]

/-- Claim C9: `clean_text` is total on strings (it is a plain function in
the model) and idempotent: cleaning an already-cleaned string changes
nothing. -/
theorem C9_clean_text_idempotent (s : Str) : clean_text (clean_text s) = clean_text s := by
  rw [clean_text_eq_joinWords s]
  exact clean_text_joinWords_fixed (cleanWords_canonical s)

/-- `detok` distributes over append. -/
theorem detok_append (ts us : List Tok) : detok (ts ++ us) = detok ts ++ detok us := by
  induction ts with
  | nil => rfl
  | cons t ts' ih => cases t <;> simp [detok, ih]

/-- Removing a stop word other than `"west"` commutes with appending
`" west"`. -/
theorem removeWord_append_west {w : Str} (hw : w ≠ "west".toList) (x : Str) :
    removeWord w (x ++ " west".toList) = removeWord w x ++ " west".toList := by
  have htokw : tokenize " west".toList = [Tok.sep ' ', Tok.word "west".toList] := by decide
  have hhead : headNotWord (tokenize " west".toList) := by
    rw [htokw]; trivial
  unfold removeWord
  rw [tokenize_append hhead, List.map_append, detok_append, htokw]
  have : List.map (subWordTok w) [Tok.sep ' ', Tok.word "west".toList] =
      [Tok.sep ' ', Tok.word "west".toList] := by
    simp only [List.map_cons, List.map_nil, subWordTok]
    rw [if_neg (fun h => hw h.symm)]
  rw [this]
  have hdet : detok [Tok.sep ' ', Tok.word "west".toList] = " west".toList := by decide
  rw [hdet]

/-- Removing the stop word `"west"` turns a trailing `" west"` into two
spaces. -/
theorem removeWord_west_append (x : Str) :
    removeWord "west".toList (x ++ " west".toList) =
      removeWord "west".toList x ++ [' ', ' '] := by
  have htokw : tokenize " west".toList = [Tok.sep ' ', Tok.word "west".toList] := by decide
  have hhead : headNotWord (tokenize " west".toList) := by
    rw [htokw]; trivial
  unfold removeWord
  rw [tokenize_append hhead, List.map_append, detok_append, htokw]
  have : List.map (subWordTok "west".toList) [Tok.sep ' ', Tok.word "west".toList] =
      [Tok.sep ' ', Tok.sep ' '] := by
    simp only [List.map_cons, List.map_nil, subWordTok]
    simp
  rw [this]
  have hdet : detok [Tok.sep ' ', Tok.sep ' '] = ([' ', ' '] : Str) := by decide
  rw [hdet]

/-- The stop-word loop on a string with `" west"` appended: the first six
stop words commute with the suffix, the seventh removes it, leaving two
spaces. -/
theorem stage_stop_append_west (u : Str) :
    stage_stop (u ++ " west".toList) = stage_stop u ++ [' ', ' '] := by
  unfold stage_stop
  simp only [remove_words, List.foldl_cons, List.foldl_nil]
  rw [@removeWord_append_west "hd".toList (by decide),
    @removeWord_append_west "hdtv".toList (by decide),
    @removeWord_append_west "tv".toList (by decide),
    @removeWord_append_west "channel".toList (by decide),
    @removeWord_append_west "network".toList (by decide),
    @removeWord_append_west "east".toList (by decide),
    removeWord_west_append]

/-- Two trailing spaces contribute no word runs. -/
theorem wordsOf_append_two_spaces (z : Str) : wordsOf (z ++ [' ', ' ']) = wordsOf z := by
  have htok : tokenize [' ', ' '] = [Tok.sep ' ', Tok.sep ' '] := by decide
  have hhead : headNotWord (tokenize ([' ', ' '] : Str)) := by
    rw [htok]; trivial
  rw [wordsOf, tokenize_append hhead, tokWords_append, htok]
  simp [tokWords, wordsOf]

/-- Appending `" west"` does not change the canonical word list. -/
theorem cleanWords_append_west (s : Str) :
    cleanWords (s ++ " west".toList) = cleanWords s := by
  unfold cleanWords
  have h1 : stage_lower (s ++ " west".toList) = stage_lower s ++ " west".toList := by
    unfold stage_lower
    rw [List.map_append]
    have : List.map lowerChar " west".toList = " west".toList := by decide
    rw [this]
  rw [h1, stage_stop_append_west]
  rw [stage_amp_append]
  have hamp2 : stage_amp [' ', ' '] = [' ', ' '] := by decide
  rw [hamp2]
  unfold stage_dash stage_punct
  rw [List.map_append, List.map_append]
  have hd2 : List.map (fun c => if c = '-' then ' ' else c) [' ', ' '] = [' ', ' '] := by decide
  rw [hd2]
  have hp2 : List.map (fun c => if !isWordChar c && !isSpaceChar c then ' ' else c) [' ', ' ']
      = [' ', ' '] := by decide
  rw [hp2]
  exact wordsOf_append_two_spaces _

/-- Claim C1 (amended): `clean_text` has no `EXCLUDED` sentinel.  It strips
the whole word "west" exactly like the other stop words — appending
`" west"` to any name leaves its cleaned form unchanged — and gives
"pacific" no special treatment at all.  Channels whose display name
contains "west" are therefore matched on the residual cleaned name (see
`C1_counterexample`). -/
theorem C1_west_stripped_no_sentinel :
    (∀ s : Str, clean_text (s ++ " west".toList) = clean_text s) ∧
    clean_text "pacific".toList = "pacific".toList := by
  constructor
  · intro s
    by_cases hs : s = []
    · subst hs
      decide
    · rw [clean_text_eq_joinWords s, clean_text_eq_joinWords (s ++ " west".toList),
        cleanWords_append_west]
  · decide

/-- Claim C2 (amended): the matcher has exactly two tiers (alias lookup and
exact-normalized lookup).  When the lowercased raw id is not an alias key
and the cleaned display name is not a master key, the channel branch only
records the channel as unmatched — the allowed set and the accepted map are
left unchanged, and no substring or fuzzy comparison is ever consulted (the
`similar` helper of line 38 has no caller). -/
theorem C2_only_two_tiers (mc : List (Str × Str)) (am : List Str) (cutoff : Nat)
    (st : FeedResult) (rawId : Str) (dispOpt : Option Str)
    (halias : dictGet? (lowerStr rawId) EPG_ALIASES = none)
    (hmaster : dictGet? (clean_text (displayOf rawId dispOpt)) mc = none) :
    processEvent mc am false cutoff st (XmlEvent.channel rawId dispOpt) =
      { st with unmatched := st.unmatched ++ [(lowerStr rawId, displayOf rawId dispOpt)] } := by
  simp only [processEvent]
  rw [if_neg (by simp), halias, hmaster]

/-- Claim C2, witness: the `ESP` / `ESPN` instance of `C2_only_two_tiers`. -/
theorem C2_only_two_tiers_witness :
    dictGet? (lowerStr "zz".toList) EPG_ALIASES = none ∧
    dictGet? (clean_text (displayOf "zz".toList (some "ESP".toList)))
      [("espn".toList, "ESPN".toList)] = none ∧
    processEvent [("espn".toList, "ESPN".toList)] [] false 0 (emptyFeedResult [])
        (XmlEvent.channel "zz".toList (some "ESP".toList)) =
      { emptyFeedResult [] with unmatched := (emptyFeedResult []).unmatched ++
          [(lowerStr "zz".toList, displayOf "zz".toList (some "ESP".toList))] } :=
  ⟨by decide, by decide,
    C2_only_two_tiers [("espn".toList, "ESPN".toList)] [] 0 (emptyFeedResult [])
      "zz".toList (some "ESP".toList) (by decide) (by decide)⟩

/-- Claim C8 (amended): when two master lines normalize to the same key, the
second line silently overwrites the first in the index (last-wins): loading
`[l₁, l₂]` with equal keys yields an index whose only entry maps the key to
`l₂`, with no warning mechanism and no exception; both lines stay in the
display list. -/
theorem C8_second_line_overwrites {l₁ l₂ : Str}
    (h₁s : stripStr l₁ = l₁) (h₂s : stripStr l₂ = l₂)
    (h₁ne : l₁ ≠ []) (h₂ne : l₂ ≠ [])
    (h₁c : l₁.head? ≠ some '#') (h₂c : l₂.head? ≠ some '#')
    (hkey : clean_text l₁ = clean_text l₂) :
    (load_master_list [l₁, l₂]).1 = [(clean_text l₂, l₂)] ∧
    (load_master_list [l₁, l₂]).2 = [l₁, l₂] := by
  unfold load_master_list
  simp only [List.foldl_cons, List.foldl_nil]
  rw [h₁s, h₂s, if_pos ⟨h₂ne, h₂c⟩, if_pos ⟨h₁ne, h₁c⟩]
  refine ⟨?_, rfl⟩
  show dictInsert (clean_text l₂) l₂ [(clean_text l₁, l₁)] = [(clean_text l₂, l₂)]
  rw [show dictInsert (clean_text l₂) l₂ [(clean_text l₁, l₁)] =
      (if clean_text l₁ = clean_text l₂ then [(clean_text l₁, l₂)]
       else (clean_text l₁, l₁) :: dictInsert (clean_text l₂) l₂ []) from rfl,
    if_pos hkey, hkey]

/-- Claim C8, witness: the `ESPN` / `ESPN HD` instance of
`C8_second_line_overwrites`. -/
theorem C8_second_line_overwrites_witness :
    clean_text "ESPN".toList = clean_text "ESPN HD".toList ∧
    (load_master_list ["ESPN".toList, "ESPN HD".toList]).1
      = [(clean_text "ESPN HD".toList, "ESPN HD".toList)] :=
  ⟨by decide,
    (C8_second_line_overwrites (by decide) (by decide) (by decide) (by decide)
      (by decide) (by decide) (by decide)).1⟩

/-- Claim C7 (amended): the assembler emits exactly one channel element per
raw id of the accepted set, in sorted raw-id order — not one per distinct
canonical name — each displaying the mapped canonical name (the raw id
itself when unmapped), and passes the programme list through unchanged.
Raw ids sharing one canonical name each get their own element. -/
theorem C7_one_element_per_raw_id (ids : List Str) (progs : List ProgEvent)
    (m : List (Str × Str)) :
    ((save_merged_xml ids progs m).channels.map Prod.fst = sortStr ids) ∧
    (∀ cid disp, (cid, disp) ∈ (save_merged_xml ids progs m).channels →
      disp = (dictGet? cid m).getD cid) ∧
    (save_merged_xml ids progs m).programmes = progs := by
  refine ⟨?_, ?_, rfl⟩
  · unfold save_merged_xml
    rw [List.map_map]
    exact map_self_of (fun x _ => rfl)
  · intro cid disp hmem
    unfold save_merged_xml at hmem
    obtain ⟨x, _, heq⟩ := List.mem_map.mp hmem
    obtain ⟨h1, h2⟩ := Prod.mk.injEq .. ▸ heq
    rw [← h2, h1]

/-- Claim C7, witness: an instance of `C7_one_element_per_raw_id` with a
mapped and an unmapped id. -/
theorem C7_one_element_per_raw_id_witness :
    ((save_merged_xml ["b".toList, "a".toList] [] [("a".toList, "X".toList)]).channels.map
      Prod.fst = sortStr ["b".toList, "a".toList]) ∧
    ("X".toList = (dictGet? "a".toList [("a".toList, "X".toList)]).getD "a".toList) :=
  ⟨(C7_one_element_per_raw_id ["b".toList, "a".toList] [] [("a".toList, "X".toList)]).1,
    (C7_one_element_per_raw_id ["b".toList, "a".toList] [] [("a".toList, "X".toList)]).2.1
      "a".toList "X".toList (by decide)⟩

/-- Claim C10 (amended): for a channel element with a missing or empty
display-name, the walker uses the raw id itself as the display name, and
the channel is accepted exactly when BOTH (a) the feed is not walked with
`local_only=True`, or the cleaned raw id lies in the allowed master set,
AND (b) the lowercased raw id is an alias key or the cleaned raw id is a
master key.  (On the local feed, an alias-only channel is skipped by the
`local_only` guard before the alias tier — see `C10_counterexample`.) -/
theorem C10_accept_iff (mc : List (Str × Str)) (am : List Str) (lo : Bool)
    (cutoff : Nat) (seen : List (Str × Str × Str)) (rawId : Str) (dispOpt : Option Str)
    (hdisp : dispOpt = none ∨ dispOpt = some []) :
    lowerStr rawId ∈ (processEvent mc am lo cutoff (emptyFeedResult seen)
        (XmlEvent.channel rawId dispOpt)).allowed ↔
      ((lo = false ∨ clean_text rawId ∈ am) ∧
        ((dictGet? (lowerStr rawId) EPG_ALIASES).isSome ∨
          (dictGet? (clean_text rawId) mc).isSome)) := by
  have hdof : displayOf rawId dispOpt = rawId := by
    rcases hdisp with h | h
    · rw [h]; rfl
    · rw [h]; simp [displayOf]
  simp only [processEvent]
  rw [hdof]
  by_cases hguard : lo = true ∧ clean_text rawId ∉ am
  · rw [if_pos hguard]
    show lowerStr rawId ∈ ([] : List Str) ↔ _
    constructor
    · intro hmem
      exact absurd hmem (List.not_mem_nil _)
    · intro ⟨h1, _⟩
      rcases h1 with h1 | h1
      · rw [hguard.1] at h1; cases h1
      · exact absurd h1 hguard.2
  · rw [if_neg hguard]
    have hpass : lo = false ∨ clean_text rawId ∈ am := by
      by_cases hlo : lo = true
      · right
        by_cases hmem : clean_text rawId ∈ am
        · exact hmem
        · exact absurd ⟨hlo, hmem⟩ hguard
      · left
        exact Bool.eq_false_iff.mpr hlo
    cases halias : dictGet? (lowerStr rawId) EPG_ALIASES with
    | some a =>
      show lowerStr rawId ∈ insertSet (lowerStr rawId) [] ↔ _
      constructor
      · intro _
        exact ⟨hpass, Or.inl rfl⟩
      · intro _
        show lowerStr rawId ∈ [lowerStr rawId]
        exact List.mem_singleton.mpr rfl
    | none =>
      cases hmc : dictGet? (clean_text rawId) mc with
      | some disp =>
        show lowerStr rawId ∈ insertSet (lowerStr rawId) [] ↔ _
        constructor
        · intro _
          exact ⟨hpass, Or.inr rfl⟩
        · intro _
          show lowerStr rawId ∈ [lowerStr rawId]
          exact List.mem_singleton.mpr rfl
      | none =>
        show lowerStr rawId ∈ ([] : List Str) ↔ _
        constructor
        · intro hmem
          exact absurd hmem (List.not_mem_nil _)
        · intro ⟨_, h2⟩
          rcases h2 with h2 | h2
          · exact absurd h2 (by decide)
          · exact absurd h2 (by decide)

/-- Claim C10, witness: a displayless channel whose cleaned raw id is a
master key is accepted on a non-local feed, via `C10_accept_iff`. -/
theorem C10_accept_iff_witness :
    lowerStr "ESPN HD".toList ∈ (processEvent [("espn".toList, "ESPN".toList)] [] false 0
        (emptyFeedResult []) (XmlEvent.channel "ESPN HD".toList none)).allowed :=
  (C10_accept_iff [("espn".toList, "ESPN".toList)] [] false 0 [] "ESPN HD".toList none
    (Or.inl rfl)).mpr (by decide)

/-- Agreement of two walker states on the channel-side fields (everything
except the programme list and the dedup set). -/
def chanAgree (st₁ st₂ : FeedResult) : Prop :=
  st₁.allowed = st₂.allowed ∧ st₁.idToDisplay = st₂.idToDisplay ∧ st₁.unmatched = st₂.unmatched

/-- The programme branch never touches the channel-side fields. -/
theorem processEvent_programme_chanAgree (mc : List (Str × Str)) (am : List Str) (lo : Bool)
    (cutoff : Nat) (st : FeedResult) (p : ProgEvent) :
    chanAgree (processEvent mc am lo cutoff st (XmlEvent.programme p)) st := by
  cases hs : p.start with
  | none =>
    simp only [processEvent, hs]
    exact ⟨rfl, rfl, rfl⟩
  | some startStr =>
    simp only [processEvent, hs]
    by_cases h1 : lowerStr p.channel = [] ∨ startStr = [] ∨ lowerStr p.channel ∉ st.allowed
    · rw [if_pos h1]; exact ⟨rfl, rfl, rfl⟩
    · rw [if_neg h1]
      cases parseTs startStr with
      | none => exact ⟨rfl, rfl, rfl⟩
      | some startDt =>
        dsimp only
        by_cases h2 : startDt ≤ cutoff
        · rw [if_pos h2]
          by_cases h3 : (lowerStr p.channel, startStr, p.title.getD []) ∈ st.seen
          · rw [if_pos h3]; exact ⟨rfl, rfl, rfl⟩
          · rw [if_neg h3]; exact ⟨rfl, rfl, rfl⟩
        · rw [if_neg h2]; exact ⟨rfl, rfl, rfl⟩

/-- One walker step preserves channel-side agreement. -/
theorem processEvent_chanAgree {mc : List (Str × Str)} {am : List Str} {lo : Bool}
    {cutoff : Nat} {st₁ st₂ : FeedResult} (h : chanAgree st₁ st₂) (ev : XmlEvent) :
    chanAgree (processEvent mc am lo cutoff st₁ ev) (processEvent mc am lo cutoff st₂ ev) := by
  obtain ⟨h1, h2, h3⟩ := h
  cases ev with
  | channel rawId dispOpt =>
    simp only [processEvent]
    by_cases hguard : lo = true ∧ clean_text (displayOf rawId dispOpt) ∉ am
    · rw [if_pos hguard, if_pos hguard]
      exact ⟨h1, h2, h3⟩
    · rw [if_neg hguard, if_neg hguard]
      cases dictGet? (lowerStr rawId) EPG_ALIASES with
      | some a => exact ⟨by rw [h1], by rw [h2], h3⟩
      | none =>
        cases dictGet? (clean_text (displayOf rawId dispOpt)) mc with
        | some disp => exact ⟨by rw [h1], by rw [h2], h3⟩
        | none => exact ⟨h1, h2, by rw [h3]⟩
  | programme p =>
    obtain ⟨a1, a2, a3⟩ := processEvent_programme_chanAgree mc am lo cutoff st₁ p
    obtain ⟨b1, b2, b3⟩ := processEvent_programme_chanAgree mc am lo cutoff st₂ p
    exact ⟨by rw [a1, b1, h1], by rw [a2, b2, h2], by rw [a3, b3, h3]⟩
  | other => exact ⟨h1, h2, h3⟩

/-- A whole walk preserves channel-side agreement. -/
theorem foldl_processEvent_chanAgree {mc : List (Str × Str)} {am : List Str} {lo : Bool}
    {cutoff : Nat} (events : List XmlEvent) :
    ∀ {st₁ st₂ : FeedResult}, chanAgree st₁ st₂ →
    chanAgree (events.foldl (processEvent mc am lo cutoff) st₁)
      (events.foldl (processEvent mc am lo cutoff) st₂) := by
  induction events with
  | nil => intro st₁ st₂ h; exact h
  | cons ev evs ih =>
    intro st₁ st₂ h
    exact ih (processEvent_chanAgree h ev)

/-- The channel-side results of `parse_xml_stream` do not depend on the
incoming dedup set. -/
theorem parse_xml_stream_chanAgree (mc : List (Str × Str)) (am : List Str) (lo : Bool)
    (cutoff : Nat) (events : List XmlEvent) (s₁ s₂ : List (Str × Str × Str)) :
    chanAgree (parse_xml_stream mc am lo cutoff events s₁)
      (parse_xml_stream mc am lo cutoff events s₂) :=
  foldl_processEvent_chanAgree events ⟨rfl, rfl, rfl⟩

/-- Agreement of two run states on the channel-side accumulators. -/
def runChanAgree (rs₁ rs₂ : RunState) : Prop :=
  rs₁.allIds = rs₂.allIds ∧ rs₁.idMap = rs₂.idMap ∧ rs₁.matchedNames = rs₂.matchedNames

/-- One feed step preserves channel-side agreement of run states. -/
theorem processFeed_runChanAgree {mc : List (Str × Str)} {am : List Str} {cutoff : Nat}
    {lo : Bool} {rs₁ rs₂ : RunState} (h : runChanAgree rs₁ rs₂) (f : Feed) :
    runChanAgree (processFeed mc am cutoff lo rs₁ f) (processFeed mc am cutoff lo rs₂ f) := by
  obtain ⟨h1, h2, h3⟩ := h
  obtain ⟨w1, w2, w3⟩ :=
    parse_xml_stream_chanAgree mc am lo cutoff f.events rs₁.seen rs₂.seen
  unfold processFeed
  cases hm : f.malformed with
  | true =>
    rw [if_pos rfl, if_pos rfl]
    exact ⟨h1, h2, h3⟩
  | false =>
    rw [if_neg (by simp), if_neg (by simp)]
    exact ⟨by rw [h1, w1], by rw [h2, w2], by rw [h3, w2]⟩

/-- A feed-loop run preserves channel-side agreement of run states. -/
theorem foldl_processFeed_runChanAgree {mc : List (Str × Str)} {am : List Str} {cutoff : Nat}
    {lo : Bool} (feeds : List Feed) :
    ∀ {rs₁ rs₂ : RunState}, runChanAgree rs₁ rs₂ →
    runChanAgree (feeds.foldl (processFeed mc am cutoff lo) rs₁)
      (feeds.foldl (processFeed mc am cutoff lo) rs₂) := by
  induction feeds with
  | nil => intro rs₁ rs₂ h; exact h
  | cons f fs ih =>
    intro rs₁ rs₂ h
    exact ih (processFeed_runChanAgree h f)

/-- The channel-side accumulators of a whole run do not depend on the
initial dedup set. -/
theorem mainRun_state_runChanAgree (M : List Str) (S : List Feed) (L : Option Feed)
    (cutoff : Nat) (s₁ s₂ : List (Str × Str × Str)) :
    runChanAgree (mainRun M S L cutoff s₁).1 (mainRun M S L cutoff s₂).1 := by
  unfold mainRun
  have hfold := @foldl_processFeed_runChanAgree (load_master_list M).1
    ((load_master_list M).2.map clean_text) cutoff false S
    ⟨[], [], [], [], s₁⟩ ⟨[], [], [], [], s₂⟩ ⟨rfl, rfl, rfl⟩
  cases L with
  | none => exact hfold
  | some lf => exact processFeed_runChanAgree hfold lf

/-- Unfolding `mainRun` output channels through the final state. -/
theorem mainRun_snd_channels (M : List Str) (S : List Feed) (L : Option Feed)
    (cutoff : Nat) (s : List (Str × Str × Str)) :
    (mainRun M S L cutoff s).2.channels = (sortStr (mainRun M S L cutoff s).1.allIds).map
      (fun cid => (cid, (dictGet? cid (mainRun M S L cutoff s).1.idMap).getD cid)) := rfl

/-- Claim C5 (amended): the channel part of the assembled output is a
function of the run's inputs alone — in particular it does not depend on
the dedup set inherited from earlier runs in the same process, because the
accepted-channel map is rebuilt fresh inside `main`.  The programme part is
NOT: `parse_xml_stream.seen_programmes` is a module-global function
attribute shared by successive `main` calls, so a second in-process run on
identical inputs drops previously seen programmes (see
`C5_counterexample`); only fresh-process reruns are byte-identical. -/
theorem C5_channels_independent_of_global_dedup (M : List Str) (S : List Feed)
    (L : Option Feed) (cutoff : Nat) (s₁ s₂ : List (Str × Str × Str)) :
    (mainRun M S L cutoff s₁).2.channels = (mainRun M S L cutoff s₂).2.channels := by
  obtain ⟨h1, h2, _⟩ := mainRun_state_runChanAgree M S L cutoff s₁ s₂
  rw [mainRun_snd_channels, mainRun_snd_channels, h1, h2]

/-- Unfolding `mainRun`'s final state without a local feed. -/
theorem mainRun_fst_none (M : List Str) (S : List Feed) (cutoff : Nat)
    (s : List (Str × Str × Str)) :
    (mainRun M S none cutoff s).1 = S.foldl (processFeed (load_master_list M).1
      ((load_master_list M).2.map clean_text) cutoff false) ⟨[], [], [], [], s⟩ := rfl

/-- Unfolding `mainRun`'s final state with a local feed. -/
theorem mainRun_fst_some (M : List Str) (S : List Feed) (lf : Feed) (cutoff : Nat)
    (s : List (Str × Str × Str)) :
    (mainRun M S (some lf) cutoff s).1 = processFeed (load_master_list M).1
      ((load_master_list M).2.map clean_text) cutoff true
      (S.foldl (processFeed (load_master_list M).1
        ((load_master_list M).2.map clean_text) cutoff false) ⟨[], [], [], [], s⟩) lf := rfl

/-- A malformed feed leaves the channel-side run accumulators untouched. -/
theorem processFeed_malformed_runChanAgree (mc : List (Str × Str)) (am : List Str)
    (cutoff : Nat) (lo : Bool) (rs : RunState) {m : Feed} (hm : m.malformed = true) :
    runChanAgree (processFeed mc am cutoff lo rs m) rs := by
  unfold processFeed
  rw [if_pos hm]
  exact ⟨rfl, rfl, rfl⟩

/-- Claim C4 (amended): a run with a malformed feed completes (the
`ET.ParseError` is caught per feed) and the malformed feed contributes zero
channels and zero programmes; the channel side of the output is exactly as
if the malformed feed were absent.  The programme side is not isolated:
dedup keys recorded while partially walking the malformed feed stay in the
module-global dedup set and can suppress identical programmes of later
feeds (see `C4_counterexample`). -/
theorem C4_malformed_feed_channel_isolation (M : List Str) (pre post : List Feed) (m : Feed)
    (hm : m.malformed = true) (L : Option Feed) (cutoff : Nat)
    (s : List (Str × Str × Str)) :
    (mainRun M (pre ++ m :: post) L cutoff s).2.channels =
      (mainRun M (pre ++ post) L cutoff s).2.channels := by
  have hfold : runChanAgree
      ((pre ++ m :: post).foldl (processFeed (load_master_list M).1
        ((load_master_list M).2.map clean_text) cutoff false) ⟨[], [], [], [], s⟩)
      ((pre ++ post).foldl (processFeed (load_master_list M).1
        ((load_master_list M).2.map clean_text) cutoff false) ⟨[], [], [], [], s⟩) := by
    rw [List.foldl_append, List.foldl_append, List.foldl_cons]
    exact foldl_processFeed_runChanAgree post
      (processFeed_malformed_runChanAgree _ _ _ _ _ hm)
  have key : runChanAgree (mainRun M (pre ++ m :: post) L cutoff s).1
      (mainRun M (pre ++ post) L cutoff s).1 := by
    cases L with
    | none =>
      rw [mainRun_fst_none, mainRun_fst_none]
      exact hfold
    | some lf =>
      rw [mainRun_fst_some, mainRun_fst_some]
      exact processFeed_runChanAgree hfold lf
  obtain ⟨h1, h2, _⟩ := key
  rw [mainRun_snd_channels, mainRun_snd_channels, h1, h2]

/-- Claim C4, witness: the three-feed instance of
`C4_malformed_feed_channel_isolation` (the feeds of `C4_counterexample`). -/
theorem C4_malformed_feed_channel_isolation_witness :
    (Feed.mk [chEv "espn.b" "ESPN", prEv "espn.b" "20240102000000" "Y"] true).malformed
      = true ∧
    (mainRun ["ESPN".toList]
        [⟨[chEv "espn.a" "ESPN", prEv "espn.a" "20240101000000" "X"], false⟩,
         ⟨[chEv "espn.b" "ESPN", prEv "espn.b" "20240102000000" "Y"], true⟩,
         ⟨[chEv "espn.b" "ESPN", prEv "espn.b" "20240102000000" "Y"], false⟩]
        none 99999999999999 []).2.channels =
      (mainRun ["ESPN".toList]
        [⟨[chEv "espn.a" "ESPN", prEv "espn.a" "20240101000000" "X"], false⟩,
         ⟨[chEv "espn.b" "ESPN", prEv "espn.b" "20240102000000" "Y"], false⟩]
        none 99999999999999 []).2.channels :=
  ⟨rfl, C4_malformed_feed_channel_isolation ["ESPN".toList]
    [⟨[chEv "espn.a" "ESPN", prEv "espn.a" "20240101000000" "X"], false⟩]
    [⟨[chEv "espn.b" "ESPN", prEv "espn.b" "20240102000000" "Y"], false⟩]
    (Feed.mk [chEv "espn.b" "ESPN", prEv "espn.b" "20240102000000" "Y"] true)
    rfl none 99999999999999 []⟩

/-- `insertSet` preserves membership. -/
theorem mem_insertSet_of_mem {x y : Str} {l : List Str} (h : x ∈ l) : x ∈ insertSet y l := by
  unfold insertSet
  by_cases hy : y ∈ l
  · rw [if_pos hy]; exact h
  · rw [if_neg hy]; exact List.mem_append_left _ h

/-- `unionSet` preserves membership of the left operand. -/
theorem mem_unionSet_left {x : Str} {a : List Str} (h : x ∈ a) (b : List Str) :
    x ∈ unionSet a b := by
  unfold unionSet
  induction b generalizing a with
  | nil => exact h
  | cons y b' ih => exact ih (mem_insertSet_of_mem h)

/-- Looking up the key just inserted. -/
theorem dictGet?_dictInsert_self (k v : Str) (d : List (Str × Str)) :
    dictGet? k (dictInsert k v d) = some v := by
  induction d with
  | nil => simp [dictInsert, dictGet?]
  | cons kv d' ih =>
    obtain ⟨k', v'⟩ := kv
    by_cases hk : k' = k
    · rw [dictInsert, if_pos hk, dictGet?, if_pos hk]
    · rw [dictInsert, if_neg hk, dictGet?, if_neg hk]
      exact ih

/-- Insertion under a different key does not change a lookup. -/
theorem dictGet?_dictInsert_other {k k' : Str} (h : k' ≠ k) (v : Str) (d : List (Str × Str)) :
    dictGet? k (dictInsert k' v d) = dictGet? k d := by
  induction d with
  | nil => simp [dictInsert, dictGet?, h]
  | cons kv d' ih =>
    obtain ⟨k'', v''⟩ := kv
    by_cases hk : k'' = k'
    · rw [dictInsert, if_pos hk, dictGet?, dictGet?, hk, if_neg h, if_neg h]
    · rw [dictInsert, if_neg hk, dictGet?, dictGet?]
      by_cases hk2 : k'' = k
      · rw [if_pos hk2, if_pos hk2]
      · rw [if_neg hk2, if_neg hk2]
        exact ih

/-- An unbound key looks up to `none`. -/
theorem dictGet?_eq_none_of_not_mem {k : Str} {d : List (Str × Str)}
    (h : k ∉ d.map Prod.fst) : dictGet? k d = none := by
  induction d with
  | nil => rfl
  | cons kv d' ih =>
    obtain ⟨k', v'⟩ := kv
    rw [dictGet?, if_neg, ih]
    · intro hmem
      exact h (List.mem_cons_of_mem _ hmem)
    · intro he
      exact h (by rw [he]; exact List.mem_cons_self _ _)

/-- Updating with a dict that does not bind `k` does not change its
lookup. -/
theorem dictGet?_dictUpdate_of_unbound {k : Str} {d₂ : List (Str × Str)}
    (h : k ∉ d₂.map Prod.fst) (d₁ : List (Str × Str)) :
    dictGet? k (dictUpdate d₁ d₂) = dictGet? k d₁ := by
  induction d₂ generalizing d₁ with
  | nil => rfl
  | cons kv d₂' ih =>
    obtain ⟨k', v'⟩ := kv
    show dictGet? k (dictUpdate (dictInsert k' v' d₁) d₂') = _
    rw [ih (fun hm => h (List.mem_cons_of_mem _ hm)),
      dictGet?_dictInsert_other (fun he => h (by rw [he]; exact List.mem_cons_self _ _))]

/-- Updating with a duplicate-free dict that binds `k` makes its lookup the
bound value (the update overwrites whatever `d₁` had). -/
theorem dictGet?_dictUpdate_of_bound {k v : Str} {d₂ : List (Str × Str)}
    (hnd : (d₂.map Prod.fst).Nodup) (h : dictGet? k d₂ = some v) (d₁ : List (Str × Str)) :
    dictGet? k (dictUpdate d₁ d₂) = some v := by
  induction d₂ generalizing d₁ with
  | nil => exact absurd h (by rw [dictGet?]; simp)
  | cons kv d₂' ih =>
    obtain ⟨k', v'⟩ := kv
    rw [List.map_cons, List.nodup_cons] at hnd
    show dictGet? k (dictUpdate (dictInsert k' v' d₁) d₂') = some v
    rw [dictGet?] at h
    by_cases hk : k' = k
    · rw [if_pos hk] at h
      subst hk
      rw [dictGet?_dictUpdate_of_unbound hnd.1, dictGet?_dictInsert_self]
      exact h
    · rw [if_neg hk] at h
      exact ih hnd.2 h _

/-- Keys after `dictInsert` come from the dict or are the inserted key. -/
theorem mem_keys_dictInsert {x k : Str} {v : Str} {d : List (Str × Str)}
    (h : x ∈ (dictInsert k v d).map Prod.fst) : x ∈ d.map Prod.fst ∨ x = k := by
  induction d with
  | nil =>
    simp [dictInsert] at h
    exact Or.inr h
  | cons kv d' ih =>
    obtain ⟨k', v'⟩ := kv
    by_cases hk : k' = k
    · rw [dictInsert, if_pos hk, List.map_cons] at h
      exact Or.inl h
    · rw [dictInsert, if_neg hk, List.map_cons] at h
      rcases List.mem_cons.mp h with h1 | h2
      · exact Or.inl (by rw [List.map_cons]; exact List.mem_cons.mpr (Or.inl h1))
      · rcases ih h2 with h3 | h3
        · exact Or.inl (by rw [List.map_cons]; exact List.mem_cons.mpr (Or.inr h3))
        · exact Or.inr h3

/-- `dictInsert` preserves duplicate-freeness of the keys. -/
theorem nodup_keys_dictInsert {d : List (Str × Str)} (h : (d.map Prod.fst).Nodup)
    (k v : Str) : ((dictInsert k v d).map Prod.fst).Nodup := by
  induction d with
  | nil => simp [dictInsert]
  | cons kv d' ih =>
    obtain ⟨k', v'⟩ := kv
    rw [List.map_cons, List.nodup_cons] at h
    by_cases hk : k' = k
    · rw [dictInsert, if_pos hk, List.map_cons, List.nodup_cons]
      exact ⟨h.1, h.2⟩
    · rw [dictInsert, if_neg hk, List.map_cons, List.nodup_cons]
      refine ⟨?_, ih h.2⟩
      intro hmem
      rcases mem_keys_dictInsert hmem with h1 | h1
      · exact h.1 h1
      · exact hk h1

/-- One walker step preserves duplicate-freeness of the accepted-map keys. -/
theorem processEvent_idToDisplay_nodup {mc : List (Str × Str)} {am : List Str} {lo : Bool}
    {cutoff : Nat} {st : FeedResult} (h : (st.idToDisplay.map Prod.fst).Nodup)
    (ev : XmlEvent) :
    (((processEvent mc am lo cutoff st ev).idToDisplay).map Prod.fst).Nodup := by
  cases ev with
  | channel rawId dispOpt =>
    simp only [processEvent]
    by_cases hguard : lo = true ∧ clean_text (displayOf rawId dispOpt) ∉ am
    · rw [if_pos hguard]; exact h
    · rw [if_neg hguard]
      cases dictGet? (lowerStr rawId) EPG_ALIASES with
      | some a => exact nodup_keys_dictInsert h _ _
      | none =>
        cases dictGet? (clean_text (displayOf rawId dispOpt)) mc with
        | some disp => exact nodup_keys_dictInsert h _ _
        | none => exact h
  | programme p =>
    obtain ⟨_, h2, _⟩ := processEvent_programme_chanAgree mc am lo cutoff st p
    rw [h2]
    exact h
  | other => exact h

/-- The accepted map built by a walk has duplicate-free keys. -/
theorem walk_idToDisplay_nodup (mc : List (Str × Str)) (am : List Str) (lo : Bool)
    (cutoff : Nat) (events : List XmlEvent) (seen : List (Str × Str × Str)) :
    (((parse_xml_stream mc am lo cutoff events seen).idToDisplay).map Prod.fst).Nodup := by
  unfold parse_xml_stream
  have main : ∀ st : FeedResult, (st.idToDisplay.map Prod.fst).Nodup →
      (((events.foldl (processEvent mc am lo cutoff) st).idToDisplay).map Prod.fst).Nodup := by
    induction events with
    | nil => intro st h; exact h
    | cons ev evs ih =>
      intro st h
      exact ih _ (processEvent_idToDisplay_nodup h ev)
  exact main (emptyFeedResult seen) (by simp [emptyFeedResult])

/-- Claim C6 (amended): within a run the accepted-ID set grows monotonically
across feeds (ids are only added, never removed), but the accepted MAP is
not first-feed-wins: every feed re-evaluates the channel elements it
contains, and `main` merges per-feed maps with `dict.update`, so whatever
binding the later feed produced for a raw id overwrites the earlier feed's
binding (last-feed-wins; see `C6_counterexample`). -/
theorem C6_ids_monotone_map_last_wins (mc : List (Str × Str)) (am : List Str)
    (cutoff : Nat) (lo : Bool) :
    (∀ (feeds : List Feed) (rs : RunState) (x : Str), x ∈ rs.allIds →
      x ∈ (feeds.foldl (processFeed mc am cutoff lo) rs).allIds) ∧
    (∀ (rs : RunState) (f : Feed) (k v : Str), f.malformed = false →
      dictGet? k (parse_xml_stream mc am lo cutoff f.events rs.seen).idToDisplay = some v →
      dictGet? k (processFeed mc am cutoff lo rs f).idMap = some v) := by
  constructor
  · intro feeds
    induction feeds with
    | nil => intro rs x h; exact h
    | cons f fs ih =>
      intro rs x h
      apply ih
      unfold processFeed
      cases hm : f.malformed with
      | true => rw [if_pos rfl]; exact h
      | false =>
        rw [if_neg (by simp)]
        exact mem_unionSet_left h _
  · intro rs f k v hm hget
    unfold processFeed
    rw [if_neg (by rw [hm]; simp)]
    show dictGet? k (dictUpdate rs.idMap
      (parse_xml_stream mc am lo cutoff f.events rs.seen).idToDisplay) = some v
    exact dictGet?_dictUpdate_of_bound
      (walk_idToDisplay_nodup mc am lo cutoff f.events rs.seen) hget _

/-- Claim C6, witness: an accepted id persists through a later feed, and a
later feed's binding for raw id `"x"` wins in the merged map. -/
theorem C6_ids_monotone_map_last_wins_witness :
    ("q".toList ∈ (([⟨[], true⟩] : List Feed).foldl
      (processFeed [] [] 0 false) ⟨["q".toList], [], [], [], []⟩).allIds) ∧
    dictGet? "x".toList (processFeed [("fox news".toList, "Fox News".toList)] [] 0 false
        ⟨[], [], [("x".toList, "ESPN".toList)], [], []⟩
        ⟨[chEv "x" "Fox News"], false⟩).idMap = some "Fox News".toList :=
  ⟨(C6_ids_monotone_map_last_wins [] [] 0 false).1 [⟨[], true⟩]
      ⟨["q".toList], [], [], [], []⟩ "q".toList (by decide),
    (C6_ids_monotone_map_last_wins [("fox news".toList, "Fox News".toList)] [] 0 false).2
      ⟨[], [], [("x".toList, "ESPN".toList)], [], []⟩ ⟨[chEv "x" "Fox News"], false⟩
      "x".toList "Fox News".toList rfl (by decide)⟩

/-- The channel-side accumulator of a walk, in isolation. -/
structure ChanAcc where
  allowed : List Str
  idToDisplay : List (Str × Str)
  unmatched : List (Str × Str)
deriving DecidableEq

/-- The channel branch of `processEvent` (lines 201-224), restricted to the
channel-side accumulator. -/
def chanStep (mc : List (Str × Str)) (am : List Str) (localOnly : Bool)
    (a : ChanAcc) : XmlEvent → ChanAcc
  | XmlEvent.channel rawId dispOpt =>
    let display := displayOf rawId dispOpt
    let cleaned := clean_text display
    let cid := lowerStr rawId
    if localOnly = true ∧ cleaned ∉ am then a
    else
      match dictGet? cid EPG_ALIASES with
      | some al =>
        { a with idToDisplay := dictInsert cid al a.idToDisplay,
                 allowed := insertSet cid a.allowed }
      | none =>
        match dictGet? cleaned mc with
        | some disp =>
          { a with idToDisplay := dictInsert cid disp a.idToDisplay,
                   allowed := insertSet cid a.allowed }
        | none => { a with unmatched := a.unmatched ++ [(cid, display)] }
  | XmlEvent.programme _ => a
  | XmlEvent.other => a

/-- The programme filter of lines 226-240, before dedup: channel reference
nonempty and accepted, start attribute present and nonempty, timestamp
parseable and within the cutoff. -/
def progOK (allowed : List Str) (cutoff : Nat) (p : ProgEvent) : Bool :=
  match p.start with
  | none => false
  | some startStr =>
    if lowerStr p.channel = [] ∨ startStr = [] ∨ lowerStr p.channel ∉ allowed then false
    else
      match parseTs startStr with
      | none => false
      | some startDt => decide (startDt ≤ cutoff)

/-- The eligible programmes of an element stream: those passing `progOK`
against the accepted set as it stood when they were encountered (dedup not
yet applied). -/
def eligList (mc : List (Str × Str)) (am : List Str) (lo : Bool) (cutoff : Nat)
    (a : ChanAcc) : List XmlEvent → List ProgEvent
  | [] => []
  | XmlEvent.channel rawId dispOpt :: evs =>
    eligList mc am lo cutoff (chanStep mc am lo a (XmlEvent.channel rawId dispOpt)) evs
  | XmlEvent.programme p :: evs =>
    if progOK a.allowed cutoff p then p :: eligList mc am lo cutoff a evs
    else eligList mc am lo cutoff a evs
  | XmlEvent.other :: evs => eligList mc am lo cutoff a evs

/-- Modelled from the spec: "First occurrence of a key wins; every
subsequent occurrence — whether from the same feed or a different one — is
dropped."  First-occurrence filter over a programme stream threading the
seen set; returns the kept programmes and the final seen set. -/
def dedupRun (seen : List (Str × Str × Str)) : List ProgEvent →
    List ProgEvent × List (Str × Str × Str)
  | [] => ([], seen)
  | p :: ps =>
    if progKey p ∈ seen then dedupRun seen ps
    else
      let r := dedupRun (seen ++ [progKey p]) ps
      (p :: r.1, r.2)

/-- The channel branch of the walker equals `chanStep` on the channel-side
fields, and leaves programmes and the dedup set alone. -/
theorem processEvent_channel_chanStep (mc : List (Str × Str)) (am : List Str) (lo : Bool)
    (cutoff : Nat) (st : FeedResult) (rawId : Str) (dispOpt : Option Str) :
    processEvent mc am lo cutoff st (XmlEvent.channel rawId dispOpt) =
      { allowed := (chanStep mc am lo ⟨st.allowed, st.idToDisplay, st.unmatched⟩
          (XmlEvent.channel rawId dispOpt)).allowed,
        idToDisplay := (chanStep mc am lo ⟨st.allowed, st.idToDisplay, st.unmatched⟩
          (XmlEvent.channel rawId dispOpt)).idToDisplay,
        programmes := st.programmes,
        unmatched := (chanStep mc am lo ⟨st.allowed, st.idToDisplay, st.unmatched⟩
          (XmlEvent.channel rawId dispOpt)).unmatched,
        seen := st.seen } := by
  simp only [processEvent, chanStep]
  by_cases hguard : lo = true ∧ clean_text (displayOf rawId dispOpt) ∉ am
  · rw [if_pos hguard, if_pos hguard]
  · rw [if_neg hguard, if_neg hguard]
    cases dictGet? (lowerStr rawId) EPG_ALIASES with
    | some a => rfl
    | none =>
      cases dictGet? (clean_text (displayOf rawId dispOpt)) mc with
      | some disp => rfl
      | none => rfl

/-- The programme branch of the walker as a filter plus first-occurrence
dedup step. -/
theorem processEvent_programme_eq (mc : List (Str × Str)) (am : List Str) (lo : Bool)
    (cutoff : Nat) (st : FeedResult) (p : ProgEvent) :
    processEvent mc am lo cutoff st (XmlEvent.programme p) =
      (if progOK st.allowed cutoff p then
        (if progKey p ∈ st.seen then st
         else { st with programmes := st.programmes ++ [p],
                        seen := st.seen ++ [progKey p] })
       else st) := by
  cases hs : p.start with
  | none =>
    simp only [processEvent, progOK, hs]
    rw [if_neg (by decide)]
  | some startStr =>
    simp only [processEvent, progOK, hs]
    by_cases h1 : lowerStr p.channel = [] ∨ startStr = [] ∨ lowerStr p.channel ∉ st.allowed
    · rw [if_pos h1, if_pos h1, if_neg (by decide)]
    · rw [if_neg h1, if_neg h1]
      cases hp : parseTs startStr with
      | none =>
        dsimp only
        rw [if_neg (by decide)]
      | some startDt =>
        dsimp only
        have hkey : progKey p = (lowerStr p.channel, startStr, p.title.getD []) := by
          unfold progKey
          rw [hs]
          rfl
        by_cases h2 : startDt ≤ cutoff
        · rw [if_pos h2,
            if_pos (show decide (startDt ≤ cutoff) = true by rw [decide_eq_true_eq]; exact h2),
            hkey]
        · rw [if_neg h2,
            if_neg (show ¬decide (startDt ≤ cutoff) = true by
              rw [decide_eq_true_eq]; exact h2)]

/-- Decomposition of a walk: the channel-side fields are the `chanStep`
fold, and the kept programmes and final dedup set are the first-occurrence
filter of the eligible programme stream. -/
theorem walk_decomp (mc : List (Str × Str)) (am : List Str) (lo : Bool) (cutoff : Nat) :
    ∀ (events : List XmlEvent) (st : FeedResult),
    events.foldl (processEvent mc am lo cutoff) st =
      { allowed := (events.foldl (chanStep mc am lo)
          ⟨st.allowed, st.idToDisplay, st.unmatched⟩).allowed,
        idToDisplay := (events.foldl (chanStep mc am lo)
          ⟨st.allowed, st.idToDisplay, st.unmatched⟩).idToDisplay,
        programmes := st.programmes ++ (dedupRun st.seen
          (eligList mc am lo cutoff ⟨st.allowed, st.idToDisplay, st.unmatched⟩ events)).1,
        unmatched := (events.foldl (chanStep mc am lo)
          ⟨st.allowed, st.idToDisplay, st.unmatched⟩).unmatched,
        seen := (dedupRun st.seen
          (eligList mc am lo cutoff ⟨st.allowed, st.idToDisplay, st.unmatched⟩ events)).2 } := by
  intro events
  induction events with
  | nil =>
    intro st
    simp only [List.foldl_nil, eligList, dedupRun, List.append_nil]
  | cons ev evs ih =>
    intro st
    rw [List.foldl_cons, List.foldl_cons]
    cases ev with
    | channel rawId dispOpt =>
      rw [processEvent_channel_chanStep, ih]
      simp only [eligList]
    | programme p =>
      rw [processEvent_programme_eq]
      by_cases hOK : progOK st.allowed cutoff p = true
      · rw [if_pos hOK]
        by_cases hseen : progKey p ∈ st.seen
        · rw [if_pos hseen, ih]
          have helig : eligList mc am lo cutoff ⟨st.allowed, st.idToDisplay, st.unmatched⟩
              (XmlEvent.programme p :: evs) =
              p :: eligList mc am lo cutoff ⟨st.allowed, st.idToDisplay, st.unmatched⟩ evs := by
            simp only [eligList]
            rw [if_pos hOK]
          rw [helig]
          have hded : dedupRun st.seen (p :: eligList mc am lo cutoff
              ⟨st.allowed, st.idToDisplay, st.unmatched⟩ evs) =
              dedupRun st.seen (eligList mc am lo cutoff
                ⟨st.allowed, st.idToDisplay, st.unmatched⟩ evs) := by
            simp only [dedupRun]
            rw [if_pos hseen]
          rw [hded]
          have hstep : chanStep mc am lo ⟨st.allowed, st.idToDisplay, st.unmatched⟩
              (XmlEvent.programme p) = ⟨st.allowed, st.idToDisplay, st.unmatched⟩ := rfl
          rw [hstep]
        · rw [if_neg hseen, ih]
          have helig : eligList mc am lo cutoff ⟨st.allowed, st.idToDisplay, st.unmatched⟩
              (XmlEvent.programme p :: evs) =
              p :: eligList mc am lo cutoff ⟨st.allowed, st.idToDisplay, st.unmatched⟩ evs := by
            simp only [eligList]
            rw [if_pos hOK]
          rw [helig]
          have hded : dedupRun st.seen (p :: eligList mc am lo cutoff
              ⟨st.allowed, st.idToDisplay, st.unmatched⟩ evs) =
              ((p :: (dedupRun (st.seen ++ [progKey p]) (eligList mc am lo cutoff
                  ⟨st.allowed, st.idToDisplay, st.unmatched⟩ evs)).1),
               (dedupRun (st.seen ++ [progKey p]) (eligList mc am lo cutoff
                  ⟨st.allowed, st.idToDisplay, st.unmatched⟩ evs)).2) := by
            simp only [dedupRun]
            rw [if_neg hseen]
          rw [hded]
          have hstep : chanStep mc am lo ⟨st.allowed, st.idToDisplay, st.unmatched⟩
              (XmlEvent.programme p) = ⟨st.allowed, st.idToDisplay, st.unmatched⟩ := rfl
          rw [hstep]
          simp only [List.append_assoc, List.singleton_append]
      · rw [if_neg hOK, ih]
        have helig : eligList mc am lo cutoff ⟨st.allowed, st.idToDisplay, st.unmatched⟩
            (XmlEvent.programme p :: evs) =
            eligList mc am lo cutoff ⟨st.allowed, st.idToDisplay, st.unmatched⟩ evs := by
          simp only [eligList]
          rw [if_neg hOK]
        rw [helig]
        have hstep : chanStep mc am lo ⟨st.allowed, st.idToDisplay, st.unmatched⟩
            (XmlEvent.programme p) = ⟨st.allowed, st.idToDisplay, st.unmatched⟩ := rfl
        rw [hstep]
    | other =>
      have hother : processEvent mc am lo cutoff st XmlEvent.other = st := rfl
      rw [hother, ih]
      simp only [eligList]
      have hstep : chanStep mc am lo ⟨st.allowed, st.idToDisplay, st.unmatched⟩
          XmlEvent.other = ⟨st.allowed, st.idToDisplay, st.unmatched⟩ := rfl
      rw [hstep]

/-- Programme-side decomposition of one `parse_xml_stream` call. -/
theorem parse_xml_stream_progs (mc : List (Str × Str)) (am : List Str) (lo : Bool)
    (cutoff : Nat) (events : List XmlEvent) (seen : List (Str × Str × Str)) :
    (parse_xml_stream mc am lo cutoff events seen).programmes =
      (dedupRun seen (eligList mc am lo cutoff ⟨[], [], []⟩ events)).1 ∧
    (parse_xml_stream mc am lo cutoff events seen).seen =
      (dedupRun seen (eligList mc am lo cutoff ⟨[], [], []⟩ events)).2 := by
  unfold parse_xml_stream
  rw [walk_decomp mc am lo cutoff events (emptyFeedResult seen)]
  constructor
  · show [] ++ _ = _
    rw [List.nil_append]
    rfl
  · rfl

/-- `dedupRun` drops a programme whose key was already seen. -/
theorem dedupRun_cons_mem {p : ProgEvent} {seen : List (Str × Str × Str)}
    (h : progKey p ∈ seen) (ps : List ProgEvent) :
    dedupRun seen (p :: ps) = dedupRun seen ps := by
  show (if progKey p ∈ seen then dedupRun seen ps else _) = _
  rw [if_pos h]

/-- `dedupRun` keeps a programme whose key is new and records the key. -/
theorem dedupRun_cons_not_mem {p : ProgEvent} {seen : List (Str × Str × Str)}
    (h : progKey p ∉ seen) (ps : List ProgEvent) :
    dedupRun seen (p :: ps) =
      (p :: (dedupRun (seen ++ [progKey p]) ps).1,
       (dedupRun (seen ++ [progKey p]) ps).2) := by
  show (if progKey p ∈ seen then _ else _) = _
  rw [if_neg h]

/-- `dedupRun` over an append: run the left part, then the right part from
the accumulated seen set. -/
theorem dedupRun_append (xs ys : List ProgEvent) :
    ∀ seen, dedupRun seen (xs ++ ys) =
      ((dedupRun seen xs).1 ++ (dedupRun (dedupRun seen xs).2 ys).1,
       (dedupRun (dedupRun seen xs).2 ys).2) := by
  induction xs with
  | nil =>
    intro seen
    simp [dedupRun]
  | cons p ps ih =>
    intro seen
    by_cases h : progKey p ∈ seen
    · rw [List.cons_append, dedupRun_cons_mem h, dedupRun_cons_mem h, ih seen]
    · rw [List.cons_append, dedupRun_cons_not_mem h, dedupRun_cons_not_mem h,
        ih (seen ++ [progKey p])]
      rfl

/-- The programmes kept by `dedupRun` have pairwise-distinct dedup keys,
none of which was in the incoming seen set. -/
theorem dedupRun_keys_nodup (l : List ProgEvent) :
    ∀ seen, ((dedupRun seen l).1.map progKey).Nodup ∧
      ∀ k ∈ (dedupRun seen l).1.map progKey, k ∉ seen := by
  induction l with
  | nil =>
    intro seen
    exact ⟨List.nodup_nil, fun k hk => absurd hk (List.not_mem_nil k)⟩
  | cons p ps ih =>
    intro seen
    by_cases h : progKey p ∈ seen
    · rw [dedupRun_cons_mem h]
      exact ih seen
    · rw [dedupRun_cons_not_mem h]
      obtain ⟨ihn, ihs⟩ := ih (seen ++ [progKey p])
      constructor
      · show ((p :: (dedupRun (seen ++ [progKey p]) ps).1).map progKey).Nodup
        rw [List.map_cons, List.nodup_cons]
        refine ⟨?_, ihn⟩
        intro hmem
        exact ihs (progKey p) hmem (List.mem_append_right _ (List.mem_singleton.mpr rfl))
      · intro k hk
        have hk' : k ∈ (p :: (dedupRun (seen ++ [progKey p]) ps).1).map progKey := hk
        rw [List.map_cons] at hk'
        rcases List.mem_cons.mp hk' with h1 | h2
        · rw [h1]; exact h
        · intro hks
          exact ihs k h2 (List.mem_append_left _ hks)

/-- Programme-side decomposition of the feed loop over well-formed feeds. -/
theorem foldl_processFeed_progs (mc : List (Str × Str)) (am : List Str) (cutoff : Nat)
    (lo : Bool) (S : List Feed) :
    ∀ rs : RunState, (∀ f ∈ S, f.malformed = false) →
    ((S.foldl (processFeed mc am cutoff lo) rs).allProgs =
      rs.allProgs ++ (dedupRun rs.seen ((S.map fun f =>
        eligList mc am lo cutoff ⟨[], [], []⟩ f.events).flatten)).1) ∧
    ((S.foldl (processFeed mc am cutoff lo) rs).seen =
      (dedupRun rs.seen ((S.map fun f =>
        eligList mc am lo cutoff ⟨[], [], []⟩ f.events).flatten)).2) := by
  induction S with
  | nil =>
    intro rs _
    constructor
    · show rs.allProgs = rs.allProgs ++ (dedupRun rs.seen []).1
      rw [show (dedupRun rs.seen []).1 = [] from rfl, List.append_nil]
    · rfl
  | cons f fs ih =>
    intro rs hwf
    have hf : f.malformed = false := hwf f (List.mem_cons_self f fs)
    obtain ⟨e1, e2⟩ := parse_xml_stream_progs mc am lo cutoff f.events rs.seen
    have hp : (processFeed mc am cutoff lo rs f).allProgs =
        rs.allProgs ++ (dedupRun rs.seen (eligList mc am lo cutoff ⟨[], [], []⟩ f.events)).1 := by
      unfold processFeed
      rw [if_neg (by rw [hf]; simp)]
      show rs.allProgs ++ (parse_xml_stream mc am lo cutoff f.events rs.seen).programmes = _
      rw [e1]
    have hsn : (processFeed mc am cutoff lo rs f).seen =
        (dedupRun rs.seen (eligList mc am lo cutoff ⟨[], [], []⟩ f.events)).2 := by
      unfold processFeed
      rw [if_neg (by rw [hf]; simp)]
      exact e2
    obtain ⟨i1, i2⟩ := ih (processFeed mc am cutoff lo rs f)
      (fun g hg => hwf g (List.mem_cons_of_mem f hg))
    rw [List.foldl_cons, List.map_cons, List.flatten_cons, dedupRun_append]
    constructor
    · rw [i1, hp, hsn, List.append_assoc]
    · rw [i2, hsn]

/-- The eligible programme stream of a whole run, in processing order: the
regular sources first (walked with `local_only=False`), then the local feed
(walked with `local_only=True`). -/
def runElig (M : List Str) (cutoff : Nat) (S : List Feed) (L : Option Feed) :
    List ProgEvent :=
  ((S.map fun f => eligList (load_master_list M).1 ((load_master_list M).2.map clean_text)
      false cutoff ⟨[], [], []⟩ f.events).flatten) ++
    (match L with
     | none => []
     | some lf => eligList (load_master_list M).1 ((load_master_list M).2.map clean_text)
        true cutoff ⟨[], [], []⟩ lf.events)

/-- Unfolding `mainRun`'s output programmes through the final state. -/
theorem mainRun_snd_programmes (M : List Str) (S : List Feed) (L : Option Feed)
    (cutoff : Nat) (s : List (Str × Str × Str)) :
    (mainRun M S L cutoff s).2.programmes = (mainRun M S L cutoff s).1.allProgs := rfl

/-- A well-formed feed step appends the feed's deduped eligible programmes
and advances the dedup set accordingly. -/
theorem processFeed_wf_progs (mc : List (Str × Str)) (am : List Str) (cutoff : Nat)
    (lo : Bool) (rs : RunState) {f : Feed} (hf : f.malformed = false) :
    ((processFeed mc am cutoff lo rs f).allProgs =
      rs.allProgs ++ (dedupRun rs.seen (eligList mc am lo cutoff ⟨[], [], []⟩ f.events)).1) ∧
    ((processFeed mc am cutoff lo rs f).seen =
      (dedupRun rs.seen (eligList mc am lo cutoff ⟨[], [], []⟩ f.events)).2) := by
  obtain ⟨e1, e2⟩ := parse_xml_stream_progs mc am lo cutoff f.events rs.seen
  constructor
  · unfold processFeed
    rw [if_neg (by rw [hf]; simp)]
    show rs.allProgs ++ (parse_xml_stream mc am lo cutoff f.events rs.seen).programmes = _
    rw [e1]
  · unfold processFeed
    rw [if_neg (by rw [hf]; simp)]
    exact e2

/-- The dedup set only grows along `dedupRun`. -/
theorem dedupRun_seen_grows (l : List ProgEvent) :
    ∀ (seen : List (Str × Str × Str)) (k), k ∈ seen → k ∈ (dedupRun seen l).2 := by
  induction l with
  | nil => intro seen k hk; exact hk
  | cons p ps ih =>
    intro seen k hk
    by_cases h : progKey p ∈ seen
    · rw [dedupRun_cons_mem h]
      exact ih seen k hk
    · rw [dedupRun_cons_not_mem h]
      exact ih (seen ++ [progKey p]) k (List.mem_append_left _ hk)

/-- Every kept programme's key ends up in the final dedup set. -/
theorem dedupRun_kept_in_seen (l : List ProgEvent) :
    ∀ (seen : List (Str × Str × Str)) (k), k ∈ (dedupRun seen l).1.map progKey →
      k ∈ (dedupRun seen l).2 := by
  induction l with
  | nil => intro seen k hk; exact absurd hk (List.not_mem_nil k)
  | cons p ps ih =>
    intro seen k hk
    by_cases h : progKey p ∈ seen
    · rw [dedupRun_cons_mem h] at hk ⊢
      exact ih seen k hk
    · rw [dedupRun_cons_not_mem h] at hk ⊢
      have hk' : k ∈ (p :: (dedupRun (seen ++ [progKey p]) ps).1).map progKey := hk
      rw [List.map_cons] at hk'
      rcases List.mem_cons.mp hk' with h1 | h2
      · rw [h1]
        exact dedupRun_seen_grows ps _ _
          (List.mem_append_right _ (List.mem_singleton.mpr rfl))
      · exact ih (seen ++ [progKey p]) k h2

/-- A malformed feed step only replaces the dedup set. -/
theorem processFeed_malformed_eq (mc : List (Str × Str)) (am : List Str) (cutoff : Nat)
    (lo : Bool) (rs : RunState) {f : Feed} (hm : f.malformed = true) :
    processFeed mc am cutoff lo rs f =
      { rs with seen := (parse_xml_stream mc am lo cutoff f.events rs.seen).seen } := by
  unfold processFeed
  rw [if_pos hm]

/-- One feed step — malformed or not — preserves the invariant that the
accumulated programmes have pairwise-distinct keys, all recorded in the
dedup set. -/
theorem processFeed_progs_nodup_inv (mc : List (Str × Str)) (am : List Str) (cutoff : Nat)
    (lo : Bool) (rs : RunState) (f : Feed)
    (h1 : (rs.allProgs.map progKey).Nodup)
    (h2 : ∀ k ∈ rs.allProgs.map progKey, k ∈ rs.seen) :
    (((processFeed mc am cutoff lo rs f).allProgs.map progKey).Nodup) ∧
    (∀ k ∈ (processFeed mc am cutoff lo rs f).allProgs.map progKey,
      k ∈ (processFeed mc am cutoff lo rs f).seen) := by
  obtain ⟨e1, e2⟩ := parse_xml_stream_progs mc am lo cutoff f.events rs.seen
  cases hm : f.malformed with
  | true =>
    rw [processFeed_malformed_eq mc am cutoff lo rs hm]
    refine ⟨h1, ?_⟩
    intro k hk
    show k ∈ (parse_xml_stream mc am lo cutoff f.events rs.seen).seen
    rw [e2]
    exact dedupRun_seen_grows _ _ _ (h2 k hk)
  | false =>
    obtain ⟨p1, p2⟩ := processFeed_wf_progs mc am cutoff lo rs hm
    rw [p1, p2]
    obtain ⟨kn, ks⟩ := dedupRun_keys_nodup
      (eligList mc am lo cutoff ⟨[], [], []⟩ f.events) rs.seen
    constructor
    · rw [List.map_append]
      rw [List.nodup_append]
      refine ⟨h1, kn, ?_⟩
      intro k hk hk2
      exact ks k hk2 (h2 k hk)
    · intro k hk
      rw [List.map_append] at hk
      rcases List.mem_append.mp hk with hk1 | hk2
      · exact dedupRun_seen_grows _ _ _ (h2 k hk1)
      · exact dedupRun_kept_in_seen _ _ _ hk2

/-- The feed loop preserves the distinct-keys invariant. -/
theorem foldl_processFeed_progs_nodup (mc : List (Str × Str)) (am : List Str) (cutoff : Nat)
    (lo : Bool) (S : List Feed) :
    ∀ rs : RunState, (rs.allProgs.map progKey).Nodup →
      (∀ k ∈ rs.allProgs.map progKey, k ∈ rs.seen) →
      (((S.foldl (processFeed mc am cutoff lo) rs).allProgs.map progKey).Nodup ∧
       ∀ k ∈ (S.foldl (processFeed mc am cutoff lo) rs).allProgs.map progKey,
         k ∈ (S.foldl (processFeed mc am cutoff lo) rs).seen) := by
  induction S with
  | nil => intro rs h1 h2; exact ⟨h1, h2⟩
  | cons f fs ih =>
    intro rs h1 h2
    obtain ⟨s1, s2⟩ := processFeed_progs_nodup_inv mc am cutoff lo rs f h1 h2
    exact ih (processFeed mc am cutoff lo rs f) s1 s2

/-- Claim C3: within one run started with an empty module-global dedup set
(a fresh process), at most one programme per `(channel, start, title)` key
is retained — the retained programmes have pairwise-distinct dedup keys,
malformed feeds included — and, when every feed is well-formed, the
retained programmes are exactly the first-occurrence filter of the eligible
programme stream in (feed order, in-feed order): the first occurrence of
each key is kept, every later occurrence from the same or a different feed
is dropped. -/
theorem C3_dedup_first_occurrence_wins (M : List Str) (S : List Feed) (L : Option Feed)
    (cutoff : Nat) :
    ((mainRun M S L cutoff []).2.programmes.map progKey).Nodup ∧
    ((∀ f ∈ S, f.malformed = false) → (∀ lf, L = some lf → lf.malformed = false) →
      (mainRun M S L cutoff []).2.programmes = (dedupRun [] (runElig M cutoff S L)).1) := by
  constructor
  · rw [mainRun_snd_programmes]
    have hbase := foldl_processFeed_progs_nodup (load_master_list M).1
      ((load_master_list M).2.map clean_text) cutoff false S
      (⟨[], [], [], [], []⟩ : RunState) (by simp) (by simp)
    cases L with
    | none =>
      rw [mainRun_fst_none]
      exact hbase.1
    | some lf =>
      rw [mainRun_fst_some]
      exact (processFeed_progs_nodup_inv (load_master_list M).1
        ((load_master_list M).2.map clean_text) cutoff true _ lf hbase.1 hbase.2).1
  · intro hS hL
    rw [mainRun_snd_programmes]
    obtain ⟨f1, f2⟩ := foldl_processFeed_progs (load_master_list M).1
      ((load_master_list M).2.map clean_text) cutoff false S
      (⟨[], [], [], [], []⟩ : RunState) hS
    cases L with
    | none =>
      rw [mainRun_fst_none, f1]
      show [] ++ (dedupRun [] _).1 = _
      rw [List.nil_append]
      unfold runElig
      rw [List.append_nil]
    | some lf =>
      have hlf : lf.malformed = false := hL lf rfl
      rw [mainRun_fst_some]
      obtain ⟨p1, _⟩ := processFeed_wf_progs (load_master_list M).1
        ((load_master_list M).2.map clean_text) cutoff true
        (S.foldl (processFeed (load_master_list M).1
          ((load_master_list M).2.map clean_text) cutoff false)
          (⟨[], [], [], [], []⟩ : RunState)) hlf
      rw [p1, f1, f2]
      show [] ++ _ ++ _ = _
      rw [List.nil_append]
      unfold runElig
      rw [dedupRun_append]

/-- Claim C3, witness: two well-formed feeds carrying the identical
`(channel, start, title)` triple; `C3_dedup_first_occurrence_wins` applies,
and the merged output retains the programme exactly once. -/
theorem C3_dedup_first_occurrence_wins_witness :
    (∀ f ∈ ([⟨[chEv "espn.a" "ESPN", prEv "espn.a" "20240101000000" "X"], false⟩,
             ⟨[chEv "espn.a" "ESPN", prEv "espn.a" "20240101000000" "X"], false⟩] : List Feed),
      f.malformed = false) ∧
    ((mainRun ["ESPN".toList]
        [⟨[chEv "espn.a" "ESPN", prEv "espn.a" "20240101000000" "X"], false⟩,
         ⟨[chEv "espn.a" "ESPN", prEv "espn.a" "20240101000000" "X"], false⟩]
        none 99999999999999 []).2.programmes =
      (dedupRun [] (runElig ["ESPN".toList] 99999999999999
        [⟨[chEv "espn.a" "ESPN", prEv "espn.a" "20240101000000" "X"], false⟩,
         ⟨[chEv "espn.a" "ESPN", prEv "espn.a" "20240101000000" "X"], false⟩] none)).1) ∧
    (((mainRun ["ESPN".toList]
        [⟨[chEv "espn.a" "ESPN", prEv "espn.a" "20240101000000" "X"], false⟩,
         ⟨[chEv "espn.a" "ESPN", prEv "espn.a" "20240101000000" "X"], false⟩]
        none 99999999999999 []).2.programmes.map progKey).Nodup) ∧
    ((mainRun ["ESPN".toList]
        [⟨[chEv "espn.a" "ESPN", prEv "espn.a" "20240101000000" "X"], false⟩,
         ⟨[chEv "espn.a" "ESPN", prEv "espn.a" "20240101000000" "X"], false⟩]
        none 99999999999999 []).2.programmes.length = 1) :=
  ⟨by decide,
    (C3_dedup_first_occurrence_wins ["ESPN".toList]
      [⟨[chEv "espn.a" "ESPN", prEv "espn.a" "20240101000000" "X"], false⟩,
       ⟨[chEv "espn.a" "ESPN", prEv "espn.a" "20240101000000" "X"], false⟩]
      none 99999999999999).2 (by decide) (fun lf h => by cases h),
    (C3_dedup_first_occurrence_wins ["ESPN".toList]
      [⟨[chEv "espn.a" "ESPN", prEv "espn.a" "20240101000000" "X"], false⟩,
       ⟨[chEv "espn.a" "ESPN", prEv "espn.a" "20240101000000" "X"], false⟩]
      none 99999999999999).1,
    by decide⟩

